import Mathlib

/-!
Verification of the generational LRU cache at the core of the
kysely-node-sqlite repository.  The cache engine (`LRUBase` in the source)
keeps two insertion-ordered maps (`#cache` = active generation, `#oldCache`
= previous generation), an active counter `#size`, a configured `#maxSize`
and a default `#maxAge`, and performs generation rotation on overflow plus
lazy TTL expiry.  The `QuickLRU` facade wraps one engine instance together
with a mirror map used for standard `keys`/`values`/`entries` iteration.

JavaScript `Map` objects are modelled as insertion-ordered association
lists (`JMap`), time (`Date.now()`) is an explicit `Nat` parameter of every
operation, and the eviction callback is modelled by recording the list of
`(key, value)` pairs the cache would pass to `onEviction`, in call order.
-/

set_option maxHeartbeats 1000000
set_option linter.unusedSectionVars false
set_option linter.unnecessarySimpa false

namespace QuickLRUModel

/-- Insertion-ordered association list modelling a JavaScript `Map`. -/
abbrev JMap (K V : Type) := List (K × V)

variable {K V : Type} [DecidableEq K]

/-- `Map.prototype.get`: first (and, for maps built by `jset`, only) binding. -/
def jfind : JMap K V → K → Option V
  | [], _ => none
  | (a, b) :: t, k => if a = k then some b else jfind t k

/-- `Map.prototype.has`. -/
def jhas (m : JMap K V) (k : K) : Bool := (jfind m k).isSome

/-- `Map.prototype.set`: overwrite in place when the key is present,
otherwise append at the end (JavaScript insertion order). -/
def jset : JMap K V → K → V → JMap K V
  | [], k, v => [(k, v)]
  | (a, b) :: t, k, v => if a = k then (a, v) :: t else (a, b) :: jset t k v

/-- `Map.prototype.delete` (the resulting map; presence is `jhas`). -/
def jdel : JMap K V → K → JMap K V
  | [], _ => []
  | (a, b) :: t, k => if a = k then jdel t k else (a, b) :: jdel t k

/-- The key sequence of a map, in insertion order. -/
def jkeys (m : JMap K V) : List K := m.map Prod.fst

@[simp] theorem jfind_nil (k : K) : jfind ([] : JMap K V) k = none := rfl

@[simp] theorem jfind_cons (a : K) (b : V) (t : JMap K V) (k : K) :
    jfind ((a, b) :: t) k = if a = k then some b else jfind t k := rfl

@[simp] theorem jhas_nil (k : K) : jhas ([] : JMap K V) k = false := rfl

theorem jhas_cons (a : K) (b : V) (t : JMap K V) (k : K) :
    jhas ((a, b) :: t) k = (if a = k then true else jhas t k) := by
  simp only [jhas, jfind_cons]
  split <;> simp

@[simp] theorem jset_nil (k : K) (v : V) : jset ([] : JMap K V) k v = [(k, v)] := rfl

@[simp] theorem jset_cons (a : K) (b : V) (t : JMap K V) (k : K) (v : V) :
    jset ((a, b) :: t) k v = if a = k then (a, v) :: t else (a, b) :: jset t k v := rfl

@[simp] theorem jdel_nil (k : K) : jdel ([] : JMap K V) k = [] := rfl

@[simp] theorem jdel_cons (a : K) (b : V) (t : JMap K V) (k : K) :
    jdel ((a, b) :: t) k = if a = k then jdel t k else (a, b) :: jdel t k := rfl

theorem jfind_jset_self (m : JMap K V) (k : K) (v : V) :
    jfind (jset m k v) k = some v := by
  induction m with
  | nil => simp
  | cons p t ih =>
    obtain ⟨a, b⟩ := p
    by_cases h : a = k <;> simp [h, ih]

theorem jfind_jset_ne (m : JMap K V) {k k2 : K} (v : V) (h : k2 ≠ k) :
    jfind (jset m k2 v) k = jfind m k := by
  induction m with
  | nil => simp [h]
  | cons p t ih =>
    obtain ⟨a, b⟩ := p
    by_cases h2 : a = k2
    · subst h2; simp [h]
    · by_cases h3 : a = k
      · subst h3; simp [h2, Ne.symm h]
      · simp [h2, h3, ih]

theorem jfind_jdel_self (m : JMap K V) (k : K) : jfind (jdel m k) k = none := by
  induction m with
  | nil => simp
  | cons p t ih =>
    obtain ⟨a, b⟩ := p
    by_cases h : a = k <;> simp [h, ih]

theorem jfind_jdel_ne (m : JMap K V) {k k2 : K} (h : k2 ≠ k) :
    jfind (jdel m k2) k = jfind m k := by
  induction m with
  | nil => simp
  | cons p t ih =>
    obtain ⟨a, b⟩ := p
    by_cases h2 : a = k2
    · subst h2; simp [h, ih]
    · by_cases h3 : a = k
      · subst h3; simp [h2, Ne.symm h]
      · simp [h2, h3, ih]

theorem jhas_iff_mem_jkeys (m : JMap K V) (k : K) : jhas m k = true ↔ k ∈ jkeys m := by
  induction m with
  | nil => simp [jkeys]
  | cons p t ih =>
    obtain ⟨a, b⟩ := p
    rw [jhas_cons]
    by_cases h : a = k
    · subst h; simp [jkeys]
    · simp only [if_neg h, jkeys, List.map_cons, List.mem_cons]
      rw [ih]
      simp [jkeys, Ne.symm h]

theorem jhas_eq_false_iff (m : JMap K V) (k : K) :
    jhas m k = false ↔ ¬ k ∈ jkeys m := by
  rw [← jhas_iff_mem_jkeys]
  constructor
  · intro h hc; rw [h] at hc; exact Bool.false_ne_true hc
  · intro h; cases hb : jhas m k
    · rfl
    · exact absurd hb h

theorem jfind_eq_none_of_not_has (m : JMap K V) (k : K) (h : jhas m k = false) :
    jfind m k = none := by
  unfold jhas at h
  cases hf : jfind m k
  · rfl
  · rw [hf] at h; simp at h

theorem jkeys_jset (m : JMap K V) (k : K) (v : V) :
    jkeys (jset m k v) = if jhas m k then jkeys m else jkeys m ++ [k] := by
  induction m with
  | nil => simp [jkeys]
  | cons p t ih =>
    obtain ⟨a, b⟩ := p
    by_cases h : a = k
    · simp [h, jkeys, jhas_cons]
    · simp only [jset_cons, if_neg h, jkeys, List.map_cons, jhas_cons, if_neg h]
      simp only [jkeys] at ih
      rw [ih]
      split <;> simp

theorem length_jset_has (m : JMap K V) (k : K) (v : V) (h : jhas m k = true) :
    (jset m k v).length = m.length := by
  induction m with
  | nil => simp at h
  | cons p t ih =>
    obtain ⟨a, b⟩ := p
    by_cases h2 : a = k
    · simp [h2]
    · rw [jhas_cons] at h
      simp only [if_neg h2] at h
      simp [h2, ih h]

theorem length_jset_not_has (m : JMap K V) (k : K) (v : V) (h : jhas m k = false) :
    (jset m k v).length = m.length + 1 := by
  induction m with
  | nil => simp
  | cons p t ih =>
    obtain ⟨a, b⟩ := p
    rw [jhas_cons] at h
    by_cases h2 : a = k
    · simp [h2] at h
    · simp only [if_neg h2] at h
      simp [h2, ih h]

theorem jdel_sublist (m : JMap K V) (k : K) : (jdel m k).Sublist m := by
  induction m with
  | nil => simp
  | cons p t ih =>
    obtain ⟨a, b⟩ := p
    by_cases h : a = k
    · simp only [jdel_cons, if_pos h]
      exact ih.trans (List.sublist_cons_self _ _)
    · simp only [jdel_cons, if_neg h]
      exact ih.cons₂ _

theorem jdel_of_not_has (m : JMap K V) (k : K) (h : jhas m k = false) :
    jdel m k = m := by
  induction m with
  | nil => simp
  | cons p t ih =>
    obtain ⟨a, b⟩ := p
    rw [jhas_cons] at h
    by_cases h2 : a = k
    · simp [h2] at h
    · simp only [if_neg h2] at h
      simp [h2, ih h]

theorem length_jdel_has (m : JMap K V) (k : K) (hnd : (jkeys m).Nodup)
    (h : jhas m k = true) : (jdel m k).length + 1 = m.length := by
  induction m with
  | nil => simp at h
  | cons p t ih =>
    obtain ⟨a, b⟩ := p
    simp only [jkeys, List.map_cons, List.nodup_cons] at hnd
    rw [jhas_cons] at h
    by_cases h2 : a = k
    · subst h2
      have : jhas t a = false := by
        rw [jhas_eq_false_iff]; exact hnd.1
      simp [jdel_of_not_has t a this]
    · simp only [if_neg h2] at h
      simp [h2, ih hnd.2 h]

theorem jkeys_sublist_of_sublist {m1 m2 : JMap K V} (h : m1.Sublist m2) :
    (jkeys m1).Sublist (jkeys m2) := h.map Prod.fst

theorem nodup_jkeys_jdel (m : JMap K V) (k : K) (hnd : (jkeys m).Nodup) :
    (jkeys (jdel m k)).Nodup :=
  (jkeys_sublist_of_sublist (jdel_sublist m k)).nodup hnd

theorem nodup_jkeys_jset (m : JMap K V) (k : K) (v : V) (hnd : (jkeys m).Nodup) :
    (jkeys (jset m k v)).Nodup := by
  rw [jkeys_jset]
  split
  · exact hnd
  · rename_i h
    rw [List.nodup_append]
    refine ⟨hnd, List.nodup_singleton k, ?_⟩
    intro x hx hy
    rw [List.mem_singleton] at hy
    subst hy
    exact (jhas_eq_false_iff m x).mp (by simpa using h) hx

theorem jfind_mem {m : JMap K V} {k : K} {v : V} (h : jfind m k = some v) :
    (k, v) ∈ m := by
  induction m with
  | nil => simp at h
  | cons p t ih =>
    obtain ⟨a, b⟩ := p
    by_cases h2 : a = k
    · subst h2
      rw [jfind_cons, if_pos rfl] at h
      injection h with h
      subst h
      exact List.mem_cons_self _ _
    · rw [jfind_cons, if_neg h2] at h
      exact List.mem_cons_of_mem _ (ih h)

theorem mem_jfind {m : JMap K V} {k : K} {v : V} (hnd : (jkeys m).Nodup)
    (h : (k, v) ∈ m) : jfind m k = some v := by
  induction m with
  | nil => simp at h
  | cons p t ih =>
    obtain ⟨a, b⟩ := p
    simp only [jkeys, List.map_cons, List.nodup_cons] at hnd
    rcases List.mem_cons.mp h with h1 | h1
    · injection h1 with h1a h1b
      subst h1a
      subst h1b
      simp
    · have hak : a ≠ k := by
        intro hc
        subst hc
        exact hnd.1 (by simpa [jkeys] using List.mem_map_of_mem Prod.fst h1)
      simp [hak, ih hnd.2 h1]

theorem mem_jkeys_of_jfind {m : JMap K V} {k : K} {v : V} (h : jfind m k = some v) :
    k ∈ jkeys m := by
  have := jfind_mem h
  simpa [jkeys] using List.mem_map_of_mem Prod.fst this

/-- A stored cache entry: the value plus an optional absolute expiry
timestamp (`CacheItem` in the source; `expiry` is `undefined` when the
effective max age is infinite). -/
structure CacheItem (V : Type) where
  value : V
  expiry : Option Nat
deriving DecidableEq

/-- State of the generational cache engine (`LRUBase` in the source).
`sz` is the private `#size` counter (a JavaScript number, kept as `Int`),
`cache` the active generation, `oldCache` the previous generation,
`maxSize` the configured bound and `maxAge` the default TTL
(`none` = `Number.POSITIVE_INFINITY`). -/
structure LRU (K V : Type) where
  sz : Int
  cache : JMap K (CacheItem V)
  oldCache : JMap K (CacheItem V)
  maxSize : Nat
  maxAge : Option Nat
deriving DecidableEq

/-- Constructor: the source validates `maxSize > 0` (and rejects a finite
`maxAge` of exactly zero); a freshly constructed cache has two empty
generations and `#size = 0`. -/
def LRU.init (m : Nat) (ma : Option Nat) : LRU K V :=
  { sz := 0, cache := [], oldCache := [], maxSize := m, maxAge := ma }

/-- The test `typeof item.expiry === "number" && item.expiry <= Date.now()`
from `#deleteIfExpired`. -/
def expiredAt (it : CacheItem V) (now : Nat) : Bool :=
  match it.expiry with
  | some e => decide (e ≤ now)
  | none => false

/-- The truthiness test `item.expiry ?` from `#getItemValue` (a numeric
expiry of `0` is falsy in JavaScript). -/
def truthyExpiry (it : CacheItem V) : Bool :=
  match it.expiry with
  | some e => decide (e ≠ 0)
  | none => false

/-- `delete(key)`: remove from both generations, decrementing `#size` when
the key was in the active generation; returns whether it was present. -/
def LRU.delete (s : LRU K V) (k : K) : Bool × LRU K V :=
  let deleted := jhas s.cache k
  let s1 : LRU K V :=
    { s with cache := jdel s.cache k, sz := if deleted then s.sz - 1 else s.sz }
  (jhas s1.oldCache k || deleted, { s1 with oldCache := jdel s1.oldCache k })

/-- `#deleteIfExpired(key, item)`: when the entry is expired, the eviction
notification for `(key, item.value)` is recorded first and then the entry
is removed via `delete` (result: delete result, new state, notifications). -/
def LRU.deleteIfExpired (s : LRU K V) (k : K) (it : CacheItem V) (now : Nat) :
    Bool × LRU K V × List (K × V) :=
  if expiredAt it now then
    ((s.delete k).1, (s.delete k).2, [(k, it.value)])
  else (false, s, [])

/-- `#getItemValue` composed with `#getOrDeleteIfExpired`: entries whose
`expiry` is falsy are returned without any expiry check. -/
def LRU.getItemValue (s : LRU K V) (k : K) (it : CacheItem V) (now : Nat) :
    Option V × LRU K V × List (K × V) :=
  if truthyExpiry it then
    let r := s.deleteIfExpired k it now
    ((if r.1 then none else some it.value), r.2.1, r.2.2)
  else (some it.value, s, [])

/-- `#set(key, value)`: insert into the active generation, increment
`#size`, and rotate generations when `#size >= #maxSize` (the retired
previous generation is emitted to `onEviction` in insertion order). -/
def LRU.internalSet (s : LRU K V) (k : K) (it : CacheItem V) :
    LRU K V × List (K × V) :=
  let s1 : LRU K V := { s with cache := jset s.cache k it, sz := s.sz + 1 }
  if (s1.maxSize : Int) ≤ s1.sz then
    ({ s1 with sz := 0, oldCache := s1.cache, cache := [] },
      s1.oldCache.map (fun p => (p.1, p.2.value)))
  else (s1, [])

/-- `#moveToRecent(key, item)`: remove from the previous generation and
re-insert through the `#set` path. -/
def LRU.moveToRecent (s : LRU K V) (k : K) (it : CacheItem V) :
    LRU K V × List (K × V) :=
  LRU.internalSet { s with oldCache := jdel s.oldCache k } k it

/-- `get(key)`: active generation first (value via `#getItemValue`), then
the previous generation (lazy expiry, else promotion via `#moveToRecent`). -/
def LRU.get (s : LRU K V) (k : K) (now : Nat) :
    Option V × LRU K V × List (K × V) :=
  if jhas s.cache k then
    match jfind s.cache k with
    | none => (none, s, [])
    | some it => s.getItemValue k it now
  else if jhas s.oldCache k then
    match jfind s.oldCache k with
    | none => (none, s, [])
    | some it =>
      let r := s.deleteIfExpired k it now
      if r.1 then (none, r.2.1, r.2.2)
      else
        let r2 := r.2.1.moveToRecent k it
        (some it.value, r2.1, r.2.2 ++ r2.2)
  else (none, s, [])

/-- `expiry = Date.now() + maxAge` for a finite effective max age,
`undefined` for an infinite one. -/
def expiryFor (ma : Option Nat) (now : Nat) : Option Nat :=
  match ma with
  | some m => some (now + m)
  | none => none

/-- `set(key, value, {maxAge?})`: `mo = none` models an absent per-call
`maxAge` option (fall back to the default), `mo = some ma` an explicit one
(`ma = none` being `Infinity`).  Overwrites in place when the key is in the
active generation, otherwise inserts via `#set`. -/
def LRU.set (s : LRU K V) (k : K) (v : V) (mo : Option (Option Nat)) (now : Nat) :
    LRU K V × List (K × V) :=
  let expiry := expiryFor (mo.getD s.maxAge) now
  if jhas s.cache k then
    ({ s with cache := jset s.cache k ⟨v, expiry⟩ }, [])
  else s.internalSet k ⟨v, expiry⟩

/-- `has(key)`: checks both generations, applying lazy expiry but never
promoting. -/
def LRU.has (s : LRU K V) (k : K) (now : Nat) :
    Bool × LRU K V × List (K × V) :=
  if jhas s.cache k then
    match jfind s.cache k with
    | none => (false, s, [])
    | some it =>
      let r := s.deleteIfExpired k it now
      (!r.1, r.2.1, r.2.2)
  else if jhas s.oldCache k then
    match jfind s.oldCache k with
    | none => (false, s, [])
    | some it =>
      let r := s.deleteIfExpired k it now
      (!r.1, r.2.1, r.2.2)
  else (false, s, [])

/-- `#peek(key, cache)`: lookup in one given generation, through
`#getItemValue`. -/
def LRU.peekIn (s : LRU K V) (m : JMap K (CacheItem V)) (k : K) (now : Nat) :
    Option V × LRU K V × List (K × V) :=
  match jfind m k with
  | none => (none, s, [])
  | some it => s.getItemValue k it now

/-- `peek(key)`: like `get` but without promotion. -/
def LRU.peek (s : LRU K V) (k : K) (now : Nat) :
    Option V × LRU K V × List (K × V) :=
  if jhas s.cache k then s.peekIn s.cache k now
  else if jhas s.oldCache k then s.peekIn s.oldCache k now
  else (none, s, [])

/-- `clear()`: empty both generations, reset `#size`; no notifications. -/
def LRU.clear (s : LRU K V) : LRU K V :=
  { s with cache := [], oldCache := [], sz := 0 }

/-- The previous-generation phase of the private `#entriesAscending`
generator: walk a snapshot of `#oldCache` in insertion order, skip keys
shadowed by the (threaded) active generation, lazily expire the rest, and
yield the survivors. -/
def ascendOldGo (now : Nat) :
    List (K × CacheItem V) → LRU K V →
      List (K × CacheItem V) × LRU K V × List (K × V)
  | [], s => ([], s, [])
  | (k, it) :: rest, s =>
    if jhas s.cache k then ascendOldGo now rest s
    else
      let r := s.deleteIfExpired k it now
      let r2 := ascendOldGo now rest r.2.1
      ((if r.1 then r2.1 else (k, it) :: r2.1), r2.2.1, r.2.2 ++ r2.2.2)

/-- The active-generation phase of `#entriesAscending`: walk a snapshot of
`#cache` in insertion order, lazily expire, yield the survivors. -/
def ascendCacheGo (now : Nat) :
    List (K × CacheItem V) → LRU K V →
      List (K × CacheItem V) × LRU K V × List (K × V)
  | [], s => ([], s, [])
  | (k, it) :: rest, s =>
    let r := s.deleteIfExpired k it now
    let r2 := ascendCacheGo now rest r.2.1
    ((if r.1 then r2.1 else (k, it) :: r2.1), r2.2.1, r.2.2 ++ r2.2.2)

/-- Full run of the private `#entriesAscending` generator (as consumed by
`resize` via `[...this.#entriesAscending()]`): previous generation first,
then the active generation. -/
def LRU.collectAscending (s : LRU K V) (now : Nat) :
    List (K × CacheItem V) × LRU K V × List (K × V) :=
  let r1 := ascendOldGo now s.oldCache s
  let r2 := ascendCacheGo now r1.2.1.cache r1.2.1
  (r1.1 ++ r2.1, r2.2.1, r1.2.2 ++ r2.2.2)

/-- Full run of the public `entriesAscending()` generator: the private one
with entries projected to `(key, value)` pairs. -/
def LRU.entriesAscendingL (s : LRU K V) (now : Nat) :
    List (K × V) × LRU K V × List (K × V) :=
  let r := s.collectAscending now
  (r.1.map (fun p => (p.1, p.2.value)), r.2.1, r.2.2)

/-- The active-generation phase of `entriesDescending()`: walk the snapshot
`[...this.#cache]` backwards (callers pass the reversed snapshot), lazily
expiring and yielding `(key, value)` pairs. -/
def descendCacheGo (now : Nat) :
    List (K × CacheItem V) → LRU K V →
      List (K × V) × LRU K V × List (K × V)
  | [], s => ([], s, [])
  | (k, it) :: rest, s =>
    let r := s.deleteIfExpired k it now
    let r2 := descendCacheGo now rest r.2.1
    ((if r.1 then r2.1 else (k, it.value) :: r2.1), r2.2.1, r.2.2 ++ r2.2.2)

/-- The previous-generation phase of `entriesDescending()`: walk the
snapshot `[...this.#oldCache]` backwards, skipping keys shadowed by the
(threaded, live) active generation. -/
def descendOldGo (now : Nat) :
    List (K × CacheItem V) → LRU K V →
      List (K × V) × LRU K V × List (K × V)
  | [], s => ([], s, [])
  | (k, it) :: rest, s =>
    if jhas s.cache k then descendOldGo now rest s
    else
      let r := s.deleteIfExpired k it now
      let r2 := descendOldGo now rest r.2.1
      ((if r.1 then r2.1 else (k, it.value) :: r2.1), r2.2.1, r.2.2 ++ r2.2.2)

/-- Full run of `entriesDescending()`: active generation newest-first, then
a snapshot of the (possibly mutated) previous generation newest-first. -/
def LRU.entriesDescendingL (s : LRU K V) (now : Nat) :
    List (K × V) × LRU K V × List (K × V) :=
  let r1 := descendCacheGo now s.cache.reverse s
  let r2 := descendOldGo now r1.2.1.oldCache.reverse r1.2.1
  (r1.1 ++ r2.1, r2.2.1, r1.2.2 ++ r2.2.2)

/-- `resize(maxSize)`: argument `0` fails validation (`TypeError` before
any mutation, modelled as the unchanged state); otherwise collect all live
entries oldest-first, evict the overflow when `removeCount >= 0` is
positive, and rebuild the generations. -/
def LRU.resize (s : LRU K V) (m : Nat) (now : Nat) : LRU K V × List (K × V) :=
  if m = 0 then (s, [])
  else
    let r := s.collectAscending now
    let items := r.1
    if items.length < m then
      (⟨(items.length : Int), items, [], m, r.2.1.maxAge⟩, r.2.2)
    else
      let removeCount := items.length - m
      (⟨0, [], items.drop removeCount, m, r.2.1.maxAge⟩,
        r.2.2 ++ (items.take removeCount).map (fun p => (p.1, p.2.value)))

/-- The count of previous-generation keys not shadowed by the active
generation (the loop in the `size` getter). -/
def LRU.oldNotShadowed (s : LRU K V) : Nat :=
  (s.oldCache.filter (fun p => !(jhas s.cache p.1))).length

/-- The `size` getter: `#oldCache.size` when the `#size` counter is falsy,
otherwise `min(#size + |previous keys not in active|, #maxSize)`. -/
def LRU.size (s : LRU K V) : Int :=
  if s.sz = 0 then (s.oldCache.length : Int)
  else min (s.sz + (s.oldNotShadowed : Int)) (s.maxSize : Int)

/-- One engine operation, with the `Date.now()` value observed during the
call made explicit. -/
inductive Op (K V : Type) where
  | get (k : K) (t : Nat)
  | set (k : K) (v : V) (mo : Option (Option Nat)) (t : Nat)
  | has (k : K) (t : Nat)
  | peek (k : K) (t : Nat)
  | del (k : K)
  | clear
  | resize (m : Nat) (t : Nat)
  | ascend (t : Nat)
  | descend (t : Nat)
deriving DecidableEq

/-- Effect of one operation: the new state and the `(key, value)` pairs
passed to `onEviction` during the call, in call order. -/
def stepE (s : LRU K V) : Op K V → LRU K V × List (K × V)
  | .get k t => ((s.get k t).2.1, (s.get k t).2.2)
  | .set k v mo t => s.set k v mo t
  | .has k t => ((s.has k t).2.1, (s.has k t).2.2)
  | .peek k t => ((s.peek k t).2.1, (s.peek k t).2.2)
  | .del k => ((s.delete k).2, [])
  | .clear => (s.clear, [])
  | .resize m t => s.resize m t
  | .ascend t => ((s.entriesAscendingL t).2.1, (s.entriesAscendingL t).2.2)
  | .descend t => ((s.entriesDescendingL t).2.1, (s.entriesDescendingL t).2.2)

/-- Run a sequence of operations. -/
def runOps (s : LRU K V) : List (Op K V) → LRU K V
  | [] => s
  | op :: ops => runOps (stepE s op).1 ops

/-- State of the `QuickLRU` facade: one engine plus the auxiliary mirror
map `#map` used for standard iteration. -/
structure QuickLRU (K V : Type) where
  base : LRU K V
  map : JMap K V
deriving DecidableEq

/-- Facade constructor. -/
def QuickLRU.init (m : Nat) (ma : Option Nat) : QuickLRU K V :=
  { base := LRU.init m ma, map := [] }

/-- Facade `set(key, value)`: delegates to the engine (with no per-call
options) and also writes the mirror map. -/
def QuickLRU.set (q : QuickLRU K V) (k : K) (v : V) (now : Nat) :
    QuickLRU K V × List (K × V) :=
  let r := q.base.set k v none now
  ({ base := r.1, map := jset q.map k v }, r.2)

/-- Facade `delete(key)`: delegates to the engine only — the mirror map is
not touched. -/
def QuickLRU.delete (q : QuickLRU K V) (k : K) : Bool × QuickLRU K V :=
  ((q.base.delete k).1, { q with base := (q.base.delete k).2 })

/-- Facade `clear()`: clears both the engine and the mirror map. -/
def QuickLRU.clear (q : QuickLRU K V) : QuickLRU K V :=
  { base := q.base.clear, map := [] }

/-- Facade `get(key)`: engine `get` (the mirror is not consulted). -/
def QuickLRU.get (q : QuickLRU K V) (k : K) (now : Nat) :
    Option V × QuickLRU K V × List (K × V) :=
  ((q.base.get k now).1, { q with base := (q.base.get k now).2.1 },
    (q.base.get k now).2.2)

/-- Facade `has(key)`. -/
def QuickLRU.has (q : QuickLRU K V) (k : K) (now : Nat) :
    Bool × QuickLRU K V × List (K × V) :=
  ((q.base.has k now).1, { q with base := (q.base.has k now).2.1 },
    (q.base.has k now).2.2)

/-- Facade `peek(key)`. -/
def QuickLRU.peek (q : QuickLRU K V) (k : K) (now : Nat) :
    Option V × QuickLRU K V × List (K × V) :=
  ((q.base.peek k now).1, { q with base := (q.base.peek k now).2.1 },
    (q.base.peek k now).2.2)

/-- Facade `resize(maxSize)`. -/
def QuickLRU.resize (q : QuickLRU K V) (m : Nat) (now : Nat) :
    QuickLRU K V × List (K × V) :=
  ({ q with base := (q.base.resize m now).1 }, (q.base.resize m now).2)

/-- Facade `keys()`: served from the mirror map in insertion order. -/
def QuickLRU.keys (q : QuickLRU K V) : List K := q.map.map Prod.fst

/-- Facade `values()`: served from the mirror map in insertion order. -/
def QuickLRU.values (q : QuickLRU K V) : List V := q.map.map Prod.snd

/-- Facade `entries()`: served from the mirror map in insertion order. -/
def QuickLRU.entries (q : QuickLRU K V) : List (K × V) := q.map

/-- One facade operation. -/
inductive FOp (K V : Type) where
  | set (k : K) (v : V) (t : Nat)
  | get (k : K) (t : Nat)
  | has (k : K) (t : Nat)
  | peek (k : K) (t : Nat)
  | del (k : K)
  | clear
  | resize (m : Nat) (t : Nat)
deriving DecidableEq

/-- Effect of one facade operation on the facade state. -/
def fstep (q : QuickLRU K V) : FOp K V → QuickLRU K V
  | .set k v t => (q.set k v t).1
  | .get k t => (q.get k t).2.1
  | .has k t => (q.has k t).2.1
  | .peek k t => (q.peek k t).2.1
  | .del k => (q.delete k).2
  | .clear => q.clear
  | .resize m t => (q.resize m t).1

/-- Run a sequence of facade operations. -/
def frun (q : QuickLRU K V) : List (FOp K V) → QuickLRU K V
  | [] => q
  | op :: ops => frun (fstep q op) ops

section ThrowModel

/-!
Exception-aware variants: `thr k = true` means the caller-supplied
`onEviction` throws when invoked with key `k`.  `Except.error s` is the
cache state at the moment the exception propagates out of the operation;
everything the source executed before invoking the callback is reflected
in that state, everything after is not.
-/

/-- `#deleteIfExpired` with a throwing callback: the notification is
invoked before `delete`, so a throw leaves the state unchanged. -/
def LRU.deleteIfExpiredT (s : LRU K V) (thr : K → Bool) (k : K)
    (it : CacheItem V) (now : Nat) : Except (LRU K V) (Bool × LRU K V) :=
  if expiredAt it now then
    if thr k then .error s
    else .ok ((s.delete k).1, (s.delete k).2)
  else .ok (false, s)

/-- `#set` with a throwing callback: on rotation the source resets `#size`
to `0` first, then emits the previous generation; a throw there leaves the
generations unswapped. -/
def LRU.internalSetT (s : LRU K V) (thr : K → Bool) (k : K)
    (it : CacheItem V) : Except (LRU K V) (LRU K V) :=
  let s1 : LRU K V := { s with cache := jset s.cache k it, sz := s.sz + 1 }
  if (s1.maxSize : Int) ≤ s1.sz then
    let s2 : LRU K V := { s1 with sz := 0 }
    if s1.oldCache.any (fun p => thr p.1) then .error s2
    else .ok { s2 with oldCache := s1.cache, cache := [] }
  else .ok s1

/-- `set` with a throwing callback. -/
def LRU.setT (s : LRU K V) (thr : K → Bool) (k : K) (v : V)
    (mo : Option (Option Nat)) (now : Nat) : Except (LRU K V) (LRU K V) :=
  let expiry := expiryFor (mo.getD s.maxAge) now
  if jhas s.cache k then
    .ok { s with cache := jset s.cache k ⟨v, expiry⟩ }
  else s.internalSetT thr k ⟨v, expiry⟩

/-- `get` with a throwing callback. -/
def LRU.getT (s : LRU K V) (thr : K → Bool) (k : K) (now : Nat) :
    Except (LRU K V) (Option V × LRU K V) :=
  if jhas s.cache k then
    match jfind s.cache k with
    | none => .ok (none, s)
    | some it =>
      if truthyExpiry it then
        match s.deleteIfExpiredT thr k it now with
        | .error e => .error e
        | .ok (d, s1) => .ok ((if d then none else some it.value), s1)
      else .ok (some it.value, s)
  else if jhas s.oldCache k then
    match jfind s.oldCache k with
    | none => .ok (none, s)
    | some it =>
      match s.deleteIfExpiredT thr k it now with
      | .error e => .error e
      | .ok (d, s1) =>
        if d then .ok (none, s1)
        else
          match LRU.internalSetT { s1 with oldCache := jdel s1.oldCache k } thr k it with
          | .error e => .error e
          | .ok s2 => .ok (some it.value, s2)
  else .ok (none, s)

/-- `has` with a throwing callback: both generation branches apply lazy
expiry through `#deleteIfExpired`. -/
def LRU.hasT (s : LRU K V) (thr : K → Bool) (k : K) (now : Nat) :
    Except (LRU K V) (Bool × LRU K V) :=
  if jhas s.cache k then
    match jfind s.cache k with
    | none => .ok (false, s)
    | some it =>
      match s.deleteIfExpiredT thr k it now with
      | .error e => .error e
      | .ok (d, s1) => .ok (!d, s1)
  else if jhas s.oldCache k then
    match jfind s.oldCache k with
    | none => .ok (false, s)
    | some it =>
      match s.deleteIfExpiredT thr k it now with
      | .error e => .error e
      | .ok (d, s1) => .ok (!d, s1)
  else .ok (false, s)

/-- `#getItemValue` with a throwing callback (the falsy-expiry shortcut
never reaches the callback). -/
def LRU.getItemValueT (s : LRU K V) (thr : K → Bool) (k : K)
    (it : CacheItem V) (now : Nat) : Except (LRU K V) (Option V × LRU K V) :=
  if truthyExpiry it then
    match s.deleteIfExpiredT thr k it now with
    | .error e => .error e
    | .ok (d, s1) => .ok ((if d then none else some it.value), s1)
  else .ok (some it.value, s)

/-- `peek` with a throwing callback (`#peek` on either generation, through
`#getItemValue`). -/
def LRU.peekT (s : LRU K V) (thr : K → Bool) (k : K) (now : Nat) :
    Except (LRU K V) (Option V × LRU K V) :=
  if jhas s.cache k then
    match jfind s.cache k with
    | none => .ok (none, s)
    | some it => s.getItemValueT thr k it now
  else if jhas s.oldCache k then
    match jfind s.oldCache k with
    | none => .ok (none, s)
    | some it => s.getItemValueT thr k it now
  else .ok (none, s)

/-- Previous-generation phase of `#entriesAscending` with a throwing
callback. -/
def ascendOldGoT (thr : K → Bool) (now : Nat) :
    List (K × CacheItem V) → LRU K V →
      Except (LRU K V) (List (K × CacheItem V) × LRU K V)
  | [], s => .ok ([], s)
  | (k, it) :: rest, s =>
    if jhas s.cache k then ascendOldGoT thr now rest s
    else
      match s.deleteIfExpiredT thr k it now with
      | .error e => .error e
      | .ok (d, s1) =>
        match ascendOldGoT thr now rest s1 with
        | .error e => .error e
        | .ok (ys, s2) => .ok ((if d then ys else (k, it) :: ys), s2)

/-- Active-generation phase of `#entriesAscending` with a throwing
callback. -/
def ascendCacheGoT (thr : K → Bool) (now : Nat) :
    List (K × CacheItem V) → LRU K V →
      Except (LRU K V) (List (K × CacheItem V) × LRU K V)
  | [], s => .ok ([], s)
  | (k, it) :: rest, s =>
    match s.deleteIfExpiredT thr k it now with
    | .error e => .error e
    | .ok (d, s1) =>
      match ascendCacheGoT thr now rest s1 with
      | .error e => .error e
      | .ok (ys, s2) => .ok ((if d then ys else (k, it) :: ys), s2)

/-- `[...this.#entriesAscending()]` with a throwing callback, as run by
`resize` and by the public ascending iterator. -/
def LRU.collectAscendingT (s : LRU K V) (thr : K → Bool) (now : Nat) :
    Except (LRU K V) (List (K × CacheItem V) × LRU K V) :=
  match ascendOldGoT thr now s.oldCache s with
  | .error e => .error e
  | .ok (ys1, s1) =>
    match ascendCacheGoT thr now s1.cache s1 with
    | .error e => .error e
    | .ok (ys2, s2) => .ok (ys1 ++ ys2, s2)

/-- Active-generation phase of `entriesDescending()` with a throwing
callback. -/
def descendCacheGoT (thr : K → Bool) (now : Nat) :
    List (K × CacheItem V) → LRU K V →
      Except (LRU K V) (List (K × V) × LRU K V)
  | [], s => .ok ([], s)
  | (k, it) :: rest, s =>
    match s.deleteIfExpiredT thr k it now with
    | .error e => .error e
    | .ok (d, s1) =>
      match descendCacheGoT thr now rest s1 with
      | .error e => .error e
      | .ok (ys, s2) => .ok ((if d then ys else (k, it.value) :: ys), s2)

/-- Previous-generation phase of `entriesDescending()` with a throwing
callback. -/
def descendOldGoT (thr : K → Bool) (now : Nat) :
    List (K × CacheItem V) → LRU K V →
      Except (LRU K V) (List (K × V) × LRU K V)
  | [], s => .ok ([], s)
  | (k, it) :: rest, s =>
    if jhas s.cache k then descendOldGoT thr now rest s
    else
      match s.deleteIfExpiredT thr k it now with
      | .error e => .error e
      | .ok (d, s1) =>
        match descendOldGoT thr now rest s1 with
        | .error e => .error e
        | .ok (ys, s2) => .ok ((if d then ys else (k, it.value) :: ys), s2)

/-- Full `entriesDescending()` run with a throwing callback. -/
def LRU.entriesDescendingT (s : LRU K V) (thr : K → Bool) (now : Nat) :
    Except (LRU K V) (List (K × V) × LRU K V) :=
  match descendCacheGoT thr now s.cache.reverse s with
  | .error e => .error e
  | .ok (ys1, s1) =>
    match descendOldGoT thr now s1.oldCache.reverse s1 with
    | .error e => .error e
    | .ok (ys2, s2) => .ok (ys1 ++ ys2, s2)

/-- `resize(maxSize)` with a throwing callback.  The `Except.error` state
is the cache state at the moment an exception escapes: the `maxSize`
validation `TypeError` (argument 0, state untouched), a lazy-expiry throw
while collecting, or a throw while emitting the overflow slice — which
happens after collection but before the generations are rebuilt and
`maxSize` is updated. -/
def LRU.resizeT (s : LRU K V) (thr : K → Bool) (m : Nat) (now : Nat) :
    Except (LRU K V) (LRU K V) :=
  if m = 0 then .error s
  else
    match s.collectAscendingT thr now with
    | .error e => .error e
    | .ok (items, s1) =>
      if items.length < m then
        .ok ⟨(items.length : Int), items, [], m, s1.maxAge⟩
      else
        let removeCount := items.length - m
        if (items.take removeCount).any (fun p => thr p.1) then .error s1
        else .ok ⟨0, [], items.drop removeCount, m, s1.maxAge⟩

end ThrowModel

/-!
Structural invariant of reachable engine states: the `#size` counter equals
the active generation's size, the active generation is strictly below
`maxSize` (a full active generation is rotated away within the very `#set`
call that filled it), the previous generation never exceeds `maxSize`, and
both generations have no duplicate keys (they model JavaScript `Map`s).
-/

def WF (s : LRU K V) : Prop :=
  s.sz = (s.cache.length : Int) ∧ s.cache.length < s.maxSize ∧
    s.oldCache.length ≤ s.maxSize ∧ (jkeys s.cache).Nodup ∧
    (jkeys s.oldCache).Nodup

instance (s : LRU K V) : Decidable (WF s) := by
  unfold WF; infer_instance

theorem WF_init (m : Nat) (ma : Option Nat) (h : 0 < m) :
    WF (LRU.init m ma : LRU K V) := by
  refine ⟨rfl, by simpa [LRU.init] using h, by simp [LRU.init], ?_, ?_⟩ <;>
    simp [LRU.init, jkeys]

@[simp] theorem delete_state_cache (s : LRU K V) (k : K) :
    (s.delete k).2.cache = jdel s.cache k := rfl

@[simp] theorem delete_state_old (s : LRU K V) (k : K) :
    (s.delete k).2.oldCache = jdel s.oldCache k := rfl

@[simp] theorem delete_state_sz (s : LRU K V) (k : K) :
    (s.delete k).2.sz = if jhas s.cache k then s.sz - 1 else s.sz := rfl

@[simp] theorem delete_state_maxSize (s : LRU K V) (k : K) :
    (s.delete k).2.maxSize = s.maxSize := rfl

@[simp] theorem delete_state_maxAge (s : LRU K V) (k : K) :
    (s.delete k).2.maxAge = s.maxAge := rfl

@[simp] theorem delete_fst (s : LRU K V) (k : K) :
    (s.delete k).1 = (jhas s.oldCache k || jhas s.cache k) := rfl

theorem deleteIfExpired_of_expired (s : LRU K V) (k : K) (it : CacheItem V)
    (now : Nat) (h : expiredAt it now = true) :
    s.deleteIfExpired k it now = ((s.delete k).1, (s.delete k).2, [(k, it.value)]) := by
  simp [LRU.deleteIfExpired, h]

theorem deleteIfExpired_of_live (s : LRU K V) (k : K) (it : CacheItem V)
    (now : Nat) (h : expiredAt it now = false) :
    s.deleteIfExpired k it now = (false, s, []) := by
  simp [LRU.deleteIfExpired, h]

theorem internalSet_rotate (s : LRU K V) (k : K) (it : CacheItem V)
    (h : (s.maxSize : Int) ≤ s.sz + 1) :
    s.internalSet k it =
      (⟨0, [], jset s.cache k it, s.maxSize, s.maxAge⟩,
        s.oldCache.map (fun p => (p.1, p.2.value))) := by
  simp [LRU.internalSet, h]

theorem internalSet_plain (s : LRU K V) (k : K) (it : CacheItem V)
    (h : ¬ (s.maxSize : Int) ≤ s.sz + 1) :
    s.internalSet k it =
      ({ s with cache := jset s.cache k it, sz := s.sz + 1 }, []) := by
  simp [LRU.internalSet, h]

theorem WF_delete (s : LRU K V) (k : K) (h : WF s) : WF (s.delete k).2 := by
  obtain ⟨h1, h2, h3, h4, h5⟩ := h
  refine ⟨?_, ?_, ?_, ?_, ?_⟩
  · simp only [delete_state_sz, delete_state_cache]
    by_cases hk : jhas s.cache k
    · have := length_jdel_has s.cache k h4 hk
      simp only [if_pos hk, h1]
      omega
    · rw [if_neg hk, jdel_of_not_has s.cache k (by simpa using hk)]
      exact h1
  · simp only [delete_state_cache, delete_state_maxSize]
    exact lt_of_le_of_lt (jdel_sublist s.cache k).length_le h2
  · simp only [delete_state_old, delete_state_maxSize]
    exact le_trans (jdel_sublist s.oldCache k).length_le h3
  · exact nodup_jkeys_jdel _ _ h4
  · exact nodup_jkeys_jdel _ _ h5

theorem WF_deleteIfExpired (s : LRU K V) (k : K) (it : CacheItem V) (now : Nat)
    (h : WF s) : WF (s.deleteIfExpired k it now).2.1 := by
  by_cases he : expiredAt it now
  · rw [deleteIfExpired_of_expired s k it now he]
    exact WF_delete s k h
  · rw [deleteIfExpired_of_live s k it now (by simpa using he)]
    exact h

theorem WF_getItemValue (s : LRU K V) (k : K) (it : CacheItem V) (now : Nat)
    (h : WF s) : WF (s.getItemValue k it now).2.1 := by
  unfold LRU.getItemValue
  by_cases ht : truthyExpiry it
  · simp only [if_pos ht]
    exact WF_deleteIfExpired s k it now h
  · simp only [if_neg ht]
    exact h

theorem WF_internalSet (s : LRU K V) (k : K) (it : CacheItem V) (h : WF s)
    (hk : jhas s.cache k = false) : WF (s.internalSet k it).1 := by
  obtain ⟨h1, h2, h3, h4, h5⟩ := h
  have hlen := length_jset_not_has s.cache k it hk
  by_cases hr : (s.maxSize : Int) ≤ s.sz + 1
  · rw [internalSet_rotate s k it hr]
    have hms : s.cache.length + 1 = s.maxSize := by omega
    refine ⟨by simp, by simp; omega, ?_, by simp [jkeys], ?_⟩
    · simpa [hlen] using le_of_eq hms
    · exact nodup_jkeys_jset _ _ _ h4
  · rw [internalSet_plain s k it hr]
    refine ⟨?_, ?_, h3, nodup_jkeys_jset _ _ _ h4, h5⟩
    · show s.sz + 1 = ((jset s.cache k it).length : Int)
      rw [hlen, h1]
      push_cast
      ring
    · show (jset s.cache k it).length < s.maxSize
      rw [hlen]
      omega

theorem WF_set (s : LRU K V) (k : K) (v : V) (mo : Option (Option Nat))
    (t : Nat) (h : WF s) : WF (s.set k v mo t).1 := by
  unfold LRU.set
  by_cases hk : jhas s.cache k
  · obtain ⟨h1, h2, h3, h4, h5⟩ := h
    simp only [if_pos hk]
    exact ⟨by simpa [length_jset_has s.cache k _ hk] using h1,
      by simpa [length_jset_has s.cache k _ hk] using h2, h3,
      nodup_jkeys_jset _ _ _ h4, h5⟩
  · simp only [if_neg hk]
    exact WF_internalSet s k _ h (by simpa using hk)

theorem WF_moveToRecent (s : LRU K V) (k : K) (it : CacheItem V) (h : WF s)
    (hk : jhas s.cache k = false) : WF (s.moveToRecent k it).1 := by
  unfold LRU.moveToRecent
  obtain ⟨h1, h2, h3, h4, h5⟩ := h
  refine WF_internalSet _ k it ⟨h1, h2, ?_, h4, ?_⟩ hk
  · exact le_trans (jdel_sublist s.oldCache k).length_le h3
  · exact nodup_jkeys_jdel _ _ h5

theorem WF_get (s : LRU K V) (k : K) (now : Nat) (h : WF s) :
    WF (s.get k now).2.1 := by
  unfold LRU.get
  by_cases hc : jhas s.cache k
  · simp only [if_pos hc]
    cases jfind s.cache k with
    | none => exact h
    | some it => exact WF_getItemValue s k it now h
  · simp only [if_neg hc]
    by_cases ho : jhas s.oldCache k
    · simp only [if_pos ho]
      cases hf : jfind s.oldCache k with
      | none => exact h
      | some it =>
        by_cases he : expiredAt it now
        · simp only [deleteIfExpired_of_expired s k it now he]
          split
          · exact WF_delete s k h
          · exact WF_moveToRecent _ k it (WF_delete s k h) (by
              simp [jhas, jfind_jdel_self])
        · simp only [deleteIfExpired_of_live s k it now (by simpa using he)]
          simp only [Bool.false_eq_true, if_false]
          exact WF_moveToRecent s k it h (by simpa using hc)
    · simp only [if_neg ho]
      exact h

theorem WF_has (s : LRU K V) (k : K) (now : Nat) (h : WF s) :
    WF (s.has k now).2.1 := by
  unfold LRU.has
  by_cases hc : jhas s.cache k
  · simp only [if_pos hc]
    cases jfind s.cache k with
    | none => exact h
    | some it => exact WF_deleteIfExpired s k it now h
  · simp only [if_neg hc]
    by_cases ho : jhas s.oldCache k
    · simp only [if_pos ho]
      cases jfind s.oldCache k with
      | none => exact h
      | some it => exact WF_deleteIfExpired s k it now h
    · simp only [if_neg ho]
      exact h

theorem WF_peekIn (s : LRU K V) (m : JMap K (CacheItem V)) (k : K) (now : Nat)
    (h : WF s) : WF (s.peekIn m k now).2.1 := by
  unfold LRU.peekIn
  cases jfind m k with
  | none => exact h
  | some it => exact WF_getItemValue s k it now h

theorem WF_peek (s : LRU K V) (k : K) (now : Nat) (h : WF s) :
    WF (s.peek k now).2.1 := by
  unfold LRU.peek
  split
  · exact WF_peekIn s _ k now h
  · split
    · exact WF_peekIn s _ k now h
    · exact h

theorem WF_clear (s : LRU K V) (h : WF s) : WF s.clear := by
  obtain ⟨h1, h2, h3, h4, h5⟩ := h
  exact ⟨rfl, by simpa [LRU.clear] using Nat.lt_of_le_of_lt (Nat.zero_le _) h2,
    by simp [LRU.clear], by simp [LRU.clear, jkeys], by simp [LRU.clear, jkeys]⟩

theorem WF_ascendOldGo (now : Nat) (l : List (K × CacheItem V)) (s : LRU K V)
    (h : WF s) : WF (ascendOldGo now l s).2.1 := by
  induction l generalizing s with
  | nil => exact h
  | cons p rest ih =>
    obtain ⟨k, it⟩ := p
    unfold ascendOldGo
    split
    · exact ih s h
    · exact ih _ (WF_deleteIfExpired s k it now h)

theorem WF_ascendCacheGo (now : Nat) (l : List (K × CacheItem V)) (s : LRU K V)
    (h : WF s) : WF (ascendCacheGo now l s).2.1 := by
  induction l generalizing s with
  | nil => exact h
  | cons p rest ih =>
    obtain ⟨k, it⟩ := p
    unfold ascendCacheGo
    exact ih _ (WF_deleteIfExpired s k it now h)

theorem WF_descendCacheGo (now : Nat) (l : List (K × CacheItem V)) (s : LRU K V)
    (h : WF s) : WF (descendCacheGo now l s).2.1 := by
  induction l generalizing s with
  | nil => exact h
  | cons p rest ih =>
    obtain ⟨k, it⟩ := p
    unfold descendCacheGo
    exact ih _ (WF_deleteIfExpired s k it now h)

theorem WF_descendOldGo (now : Nat) (l : List (K × CacheItem V)) (s : LRU K V)
    (h : WF s) : WF (descendOldGo now l s).2.1 := by
  induction l generalizing s with
  | nil => exact h
  | cons p rest ih =>
    obtain ⟨k, it⟩ := p
    unfold descendOldGo
    split
    · exact ih s h
    · exact ih _ (WF_deleteIfExpired s k it now h)

theorem WF_collectAscending (s : LRU K V) (now : Nat) (h : WF s) :
    WF (s.collectAscending now).2.1 :=
  WF_ascendCacheGo now _ _ (WF_ascendOldGo now s.oldCache s h)

/-- In the previous-generation phase the active generation is never
touched: the phase only deletes entries whose key is absent from it. -/
theorem ascendOldGo_cache (now : Nat) (l : List (K × CacheItem V))
    (s : LRU K V) : (ascendOldGo now l s).2.1.cache = s.cache := by
  induction l generalizing s with
  | nil => rfl
  | cons p rest ih =>
    obtain ⟨k, it⟩ := p
    unfold ascendOldGo
    split
    · exact ih s
    · rename_i hk
      by_cases he : expiredAt it now
      · rw [deleteIfExpired_of_expired s k it now he]
        rw [ih]
        simp only [delete_state_cache]
        exact jdel_of_not_has s.cache k (by simpa using hk)
      · rw [deleteIfExpired_of_live s k it now (by simpa using he)]
        exact ih s

/-- The entries yielded by the previous-generation ascending phase form a
sublist of the walked snapshot. -/
theorem ascendOldGo_yield_sublist (now : Nat) (l : List (K × CacheItem V))
    (s : LRU K V) : (ascendOldGo now l s).1.Sublist l := by
  induction l generalizing s with
  | nil => simp [ascendOldGo]
  | cons p rest ih =>
    obtain ⟨k, it⟩ := p
    unfold ascendOldGo
    by_cases hk : jhas s.cache k
    · rw [if_pos hk]
      exact (ih s).trans (List.sublist_cons_self _ _)
    · rw [if_neg hk]
      dsimp only
      by_cases hd : (s.deleteIfExpired k it now).1
      · rw [if_pos hd]
        exact (ih _).trans (List.sublist_cons_self _ _)
      · rw [if_neg hd]
        exact (ih _).cons₂ _

theorem ascendCacheGo_yield_sublist (now : Nat) (l : List (K × CacheItem V))
    (s : LRU K V) : (ascendCacheGo now l s).1.Sublist l := by
  induction l generalizing s with
  | nil => simp [ascendCacheGo]
  | cons p rest ih =>
    obtain ⟨k, it⟩ := p
    unfold ascendCacheGo
    dsimp only
    by_cases hd : (s.deleteIfExpired k it now).1
    · rw [if_pos hd]
      exact (ih _).trans (List.sublist_cons_self _ _)
    · rw [if_neg hd]
      exact (ih _).cons₂ _

/-- Every entry yielded by the previous-generation ascending phase has a
key that is not shadowed by the active generation. -/
theorem ascendOldGo_yield_not_has (now : Nat) (l : List (K × CacheItem V))
    (s : LRU K V) (p : K × CacheItem V) (hp : p ∈ (ascendOldGo now l s).1) :
    jhas s.cache p.1 = false := by
  induction l generalizing s with
  | nil => simp [ascendOldGo] at hp
  | cons q rest ih =>
    obtain ⟨k, it⟩ := q
    unfold ascendOldGo at hp
    by_cases hk : jhas s.cache k
    · rw [if_pos hk] at hp
      exact ih s hp
    · rw [if_neg hk] at hp
      dsimp only at hp
      have hcc : (s.deleteIfExpired k it now).2.1.cache = s.cache := by
        by_cases he : expiredAt it now
        · rw [deleteIfExpired_of_expired s k it now he]
          simp only [delete_state_cache]
          exact jdel_of_not_has s.cache k (by simpa using hk)
        · rw [deleteIfExpired_of_live s k it now (by simpa using he)]
      by_cases hd : (s.deleteIfExpired k it now).1
      · rw [if_pos hd] at hp
        have hres := ih _ hp
        rwa [hcc] at hres
      · rw [if_neg hd] at hp
        rcases List.mem_cons.mp hp with h1 | h1
        · subst h1
          simpa using hk
        · have hres := ih _ h1
          rwa [hcc] at hres

/-- The collected ascending entries have pairwise distinct keys. -/
theorem nodup_jkeys_collect (s : LRU K V) (now : Nat) (h : WF s) :
    (jkeys (s.collectAscending now).1).Nodup := by
  obtain ⟨h1, h2, h3, h4, h5⟩ := h
  have hys1 := ascendOldGo_yield_sublist now s.oldCache s
  have hcache := ascendOldGo_cache now s.oldCache s
  have hys2 := ascendCacheGo_yield_sublist now
    (ascendOldGo now s.oldCache s).2.1.cache (ascendOldGo now s.oldCache s).2.1
  have hcol : (s.collectAscending now).1
      = (ascendOldGo now s.oldCache s).1
        ++ (ascendCacheGo now (ascendOldGo now s.oldCache s).2.1.cache
              (ascendOldGo now s.oldCache s).2.1).1 := rfl
  rw [hcol]
  simp only [jkeys, List.map_append] at h4 h5 ⊢
  rw [List.nodup_append]
  have h4c : (List.map Prod.fst
      (ascendCacheGo now (ascendOldGo now s.oldCache s).2.1.cache
        (ascendOldGo now s.oldCache s).2.1).1).Nodup := by
    refine (hys2.map Prod.fst).nodup ?_
    rw [hcache]
    exact h4
  refine ⟨(hys1.map Prod.fst).nodup h5, h4c, ?_⟩
  intro x hx1 hx2
  obtain ⟨p, hp, hpx⟩ := List.mem_map.mp hx1
  obtain ⟨q, hq, hqx⟩ := List.mem_map.mp hx2
  have hnh := ascendOldGo_yield_not_has now s.oldCache s p hp
  rw [hpx] at hnh
  have hinc : x ∈ jkeys s.cache := by
    rw [← hcache, ← hqx]
    exact (jkeys_sublist_of_sublist hys2).subset (List.mem_map_of_mem Prod.fst hq)
  exact (jhas_eq_false_iff s.cache x).mp hnh hinc

theorem WF_resize (s : LRU K V) (m : Nat) (now : Nat) (h : WF s) :
    WF (s.resize m now).1 := by
  unfold LRU.resize
  by_cases hm : m = 0
  · simp only [if_pos hm]
    exact h
  · simp only [if_neg hm]
    have hnd := nodup_jkeys_collect s now h
    set items := (s.collectAscending now).1 with hitems
    by_cases hlt : items.length < m
    · simp only [if_pos hlt]
      exact ⟨rfl, by simpa using hlt, by simpa using Nat.zero_le m,
        hnd, by simp [jkeys]⟩
    · simp only [if_neg hlt]
      have hge : m ≤ items.length := Nat.le_of_not_lt hlt
      refine ⟨rfl, by simpa using Nat.pos_of_ne_zero hm, ?_, by simp [jkeys], ?_⟩
      · simp only [List.length_drop]
        omega
      · exact ((List.drop_sublist _ _).map Prod.fst).nodup hnd

theorem WF_stepE (s : LRU K V) (op : Op K V) (h : WF s) : WF (stepE s op).1 := by
  cases op with
  | get k t => exact WF_get s k t h
  | set k v mo t => exact WF_set s k v mo t h
  | has k t => exact WF_has s k t h
  | peek k t => exact WF_peek s k t h
  | del k => exact WF_delete s k h
  | clear => exact WF_clear s h
  | resize m t => exact WF_resize s m t h
  | ascend t =>
    show WF (s.entriesAscendingL t).2.1
    unfold LRU.entriesAscendingL
    exact WF_collectAscending s t h
  | descend t =>
    show WF (s.entriesDescendingL t).2.1
    unfold LRU.entriesDescendingL
    exact WF_descendOldGo t _ _ (WF_descendCacheGo t _ _ h)

theorem WF_runOps (s : LRU K V) (ops : List (Op K V)) (h : WF s) :
    WF (runOps s ops) := by
  induction ops generalizing s with
  | nil => exact h
  | cons op rest ih => exact ih _ (WF_stepE s op h)

theorem size_le_maxSize_of_WF (s : LRU K V) (h : WF s) :
    s.size ≤ (s.maxSize : Int) := by
  obtain ⟨h1, h2, h3, h4, h5⟩ := h
  unfold LRU.size
  split
  · exact_mod_cast h3
  · exact min_le_right _ _

/-- Claim C1: for every sequence of operations on a cache constructed with
`maxSize = m > 0` (get, set, has, peek, delete, clear, resize — resize
updating the bound — and the two ordered iterators), the reported `size`
after every operation is at most the then-current `maxSize`. -/
theorem C1_size_bounded_by_maxSize (m : Nat) (ma : Option Nat) (hm : 0 < m)
    (ops : List (Op K V)) :
    (runOps (LRU.init m ma : LRU K V) ops).size
      ≤ ((runOps (LRU.init m ma : LRU K V) ops).maxSize : Int) :=
  size_le_maxSize_of_WF _ (WF_runOps _ ops (WF_init m ma hm))

/-- Witness for C1 at a concrete operation sequence exercising rotation,
promotion, TTL, resize, delete and iteration on a cache with `maxSize 2`. -/
theorem C1_size_bounded_by_maxSize_witness :
    0 < 2 ∧
      (runOps (LRU.init 2 (some 5) : LRU Nat Nat)
          [Op.set 1 10 none 0, Op.set 2 20 none 0, Op.get 1 0,
           Op.set 3 30 (some none) 1, Op.resize 1 2, Op.del 2,
           Op.has 3 7, Op.ascend 8, Op.descend 9, Op.peek 1 9]).size
        ≤ ((runOps (LRU.init 2 (some 5) : LRU Nat Nat)
          [Op.set 1 10 none 0, Op.set 2 20 none 0, Op.get 1 0,
           Op.set 3 30 (some none) 1, Op.resize 1 2, Op.del 2,
           Op.has 3 7, Op.ascend 8, Op.descend 9, Op.peek 1 9]).maxSize : Int) :=
  ⟨by decide,
    C1_size_bounded_by_maxSize 2 (some 5) (by decide)
      [Op.set 1 10 none 0, Op.set 2 20 none 0, Op.get 1 0,
       Op.set 3 30 (some none) 1, Op.resize 1 2, Op.del 2,
       Op.has 3 7, Op.ascend 8, Op.descend 9, Op.peek 1 9]⟩

/-!
Read-your-write machinery.  `lookup2 s k` is the authoritative stored entry
for `k` (active generation first, previous generation otherwise);
`opRemoves k s op` states that executing `op` in state `s` removes or
overwrites `k` — it is a `delete k`, a `clear`, a `set` to `k`, or an
operation that passes `k` to `onEviction` (rotation eviction, resize
eviction, or lazy TTL expiry). -/

def lookup2 (s : LRU K V) (k : K) : Option (CacheItem V) :=
  match jfind s.cache k with
  | some it => some it
  | none => jfind s.oldCache k

/-- Does `ev` (a recorded `onEviction` call list) mention key `k`? -/
def evicts (ev : List (K × V)) (k : K) : Bool :=
  ev.any (fun p => decide (p.1 = k))

def opRemoves (k : K) (s : LRU K V) (op : Op K V) : Bool :=
  (match op with
   | .del k2 => decide (k2 = k)
   | .clear => true
   | .set k2 _ _ _ => decide (k2 = k)
   | _ => false) || evicts (stepE s op).2 k

def keptAlong (k : K) : LRU K V → List (Op K V) → Bool
  | _, [] => true
  | s, op :: ops => !(opRemoves k s op) && keptAlong k (stepE s op).1 ops

@[simp] theorem evicts_nil (k : K) : evicts ([] : List (K × V)) k = false := rfl

theorem evicts_append (l1 l2 : List (K × V)) (k : K) :
    evicts (l1 ++ l2) k = (evicts l1 k || evicts l2 k) := by
  simp [evicts]

theorem evicts_self (v : V) (l : List (K × V)) (k : K) :
    evicts ((k, v) :: l) k = true := by
  simp [evicts]

/-- If the eviction record of a retired map mentions no `k`, then `k` is
not in that map. -/
theorem not_mem_of_evicts_map_false (m : JMap K (CacheItem V)) (k : K)
    (h : evicts (m.map (fun p => (p.1, p.2.value))) k = false)
    (it : CacheItem V) : (k, it) ∉ m := by
  intro hm
  have : evicts (m.map (fun p => (p.1, p.2.value))) k = true := by
    simp only [evicts, List.any_eq_true]
    exact ⟨(k, it.value), List.mem_map_of_mem _ hm, by simp⟩
  rw [h] at this
  exact Bool.false_ne_true this

theorem jfind_eq_none_of_evicts_map_false (m : JMap K (CacheItem V)) (k : K)
    (h : evicts (m.map (fun p => (p.1, p.2.value))) k = false) :
    jfind m k = none := by
  cases hf : jfind m k with
  | none => rfl
  | some it => exact absurd (jfind_mem hf) (not_mem_of_evicts_map_false m k h it)

theorem lookup2_delete_ne (s : LRU K V) {k k2 : K} (h : k2 ≠ k) :
    lookup2 (s.delete k2).2 k = lookup2 s k := by
  unfold lookup2
  rw [delete_state_cache, delete_state_old, jfind_jdel_ne _ h, jfind_jdel_ne _ h]

theorem lookup2_deleteIfExpired_ne (s : LRU K V) {k k2 : K}
    (it2 : CacheItem V) (now : Nat) (h : k2 ≠ k) :
    lookup2 (s.deleteIfExpired k2 it2 now).2.1 k = lookup2 s k := by
  by_cases he : expiredAt it2 now
  · rw [deleteIfExpired_of_expired s k2 it2 now he]
    exact lookup2_delete_ne s h
  · rw [deleteIfExpired_of_live s k2 it2 now (by simpa using he)]

theorem deleteIfExpired_self_of_no_evict (s : LRU K V) (k : K)
    (it : CacheItem V) (now : Nat)
    (hev : evicts (s.deleteIfExpired k it now).2.2 k = false) :
    s.deleteIfExpired k it now = (false, s, []) := by
  by_cases he : expiredAt it now
  · rw [deleteIfExpired_of_expired s k it now he] at hev
    rw [evicts_self it.value [] k] at hev
    exact absurd hev (by simp)
  · exact deleteIfExpired_of_live s k it now (by simpa using he)

theorem getItemValue_self_of_no_evict (s : LRU K V) (k : K)
    (it : CacheItem V) (now : Nat)
    (hev : evicts (s.getItemValue k it now).2.2 k = false) :
    (s.getItemValue k it now).2.1 = s := by
  unfold LRU.getItemValue at hev ⊢
  by_cases ht : truthyExpiry it
  · simp only [if_pos ht] at hev ⊢
    rw [deleteIfExpired_self_of_no_evict s k it now hev]
  · simp only [if_neg ht]

theorem lookup2_getItemValue_ne (s : LRU K V) {k k2 : K}
    (it2 : CacheItem V) (now : Nat) (h : k2 ≠ k) :
    lookup2 (s.getItemValue k2 it2 now).2.1 k = lookup2 s k := by
  unfold LRU.getItemValue
  by_cases ht : truthyExpiry it2
  · simp only [if_pos ht]
    exact lookup2_deleteIfExpired_ne s it2 now h
  · simp only [if_neg ht]

theorem lookup2_internalSet_self (s : LRU K V) (k : K) (it : CacheItem V) :
    lookup2 (s.internalSet k it).1 k = some it := by
  by_cases hr : (s.maxSize : Int) ≤ s.sz + 1
  · rw [internalSet_rotate s k it hr]
    unfold lookup2
    simp [jfind_jset_self]
  · rw [internalSet_plain s k it hr]
    unfold lookup2
    simp [jfind_jset_self]

theorem lookup2_internalSet_ne (s : LRU K V) {k k2 : K} (it2 : CacheItem V)
    (hne : k2 ≠ k) (hev : evicts (s.internalSet k2 it2).2 k = false) :
    lookup2 (s.internalSet k2 it2).1 k = lookup2 s k := by
  by_cases hr : (s.maxSize : Int) ≤ s.sz + 1
  · rw [internalSet_rotate s k2 it2 hr] at hev ⊢
    have hnone : jfind s.oldCache k = none :=
      jfind_eq_none_of_evicts_map_false s.oldCache k hev
    unfold lookup2
    simp only
    rw [jfind_nil, jfind_jset_ne _ _ hne, hnone]
    cases jfind s.cache k <;> rfl
  · rw [internalSet_plain s k2 it2 hr]
    unfold lookup2
    simp only
    rw [jfind_jset_ne _ _ hne]

theorem lookup2_moveToRecent_self (s : LRU K V) (k : K) (it : CacheItem V) :
    lookup2 (s.moveToRecent k it).1 k = some it :=
  lookup2_internalSet_self _ k it

theorem lookup2_moveToRecent_ne (s : LRU K V) {k k2 : K} (it2 : CacheItem V)
    (hne : k2 ≠ k) (hev : evicts (s.moveToRecent k2 it2).2 k = false) :
    lookup2 (s.moveToRecent k2 it2).1 k = lookup2 s k := by
  unfold LRU.moveToRecent at hev ⊢
  rw [lookup2_internalSet_ne _ it2 hne hev]
  unfold lookup2
  simp only
  rw [jfind_jdel_ne _ hne]

theorem lookup2_set_self (s : LRU K V) (k : K) (v : V)
    (mo : Option (Option Nat)) (t : Nat) :
    lookup2 (s.set k v mo t).1 k
      = some ⟨v, expiryFor (mo.getD s.maxAge) t⟩ := by
  unfold LRU.set
  by_cases hk : jhas s.cache k
  · simp only [if_pos hk]
    unfold lookup2
    simp [jfind_jset_self]
  · simp only [if_neg hk]
    exact lookup2_internalSet_self s k _

theorem lookup2_set_ne (s : LRU K V) {k k2 : K} (v : V)
    (mo : Option (Option Nat)) (t : Nat) (hne : k2 ≠ k)
    (hev : evicts (s.set k2 v mo t).2 k = false) :
    lookup2 (s.set k2 v mo t).1 k = lookup2 s k := by
  unfold LRU.set at hev ⊢
  by_cases hk : jhas s.cache k2
  · simp only [if_pos hk]
    unfold lookup2
    simp only
    rw [jfind_jset_ne _ _ hne]
  · simp only [if_pos, if_neg hk] at hev ⊢
    exact lookup2_internalSet_ne s _ hne hev

theorem evicts_append_false {l1 l2 : List (K × V)} {k : K}
    (h : evicts (l1 ++ l2) k = false) :
    evicts l1 k = false ∧ evicts l2 k = false := by
  rw [evicts_append] at h
  exact Bool.or_eq_false_iff.mp h

theorem lookup2_eq_cases {s : LRU K V} {k : K} {it : CacheItem V}
    (h : lookup2 s k = some it) :
    jfind s.cache k = some it
      ∨ (jfind s.cache k = none ∧ jfind s.oldCache k = some it) := by
  unfold lookup2 at h
  cases hfc : jfind s.cache k with
  | some itc =>
    rw [hfc] at h
    dsimp only at h
    exact Or.inl h
  | none =>
    rw [hfc] at h
    dsimp only at h
    exact Or.inr ⟨rfl, h⟩

theorem lookup2_of_cache {s : LRU K V} {k : K} {it : CacheItem V}
    (h : jfind s.cache k = some it) : lookup2 s k = some it := by
  unfold lookup2
  rw [h]

theorem lookup2_of_old {s : LRU K V} {k : K} {it : CacheItem V}
    (hc : jfind s.cache k = none) (ho : jfind s.oldCache k = some it) :
    lookup2 s k = some it := by
  unfold lookup2
  rw [hc, ho]

theorem ascendOldGo_lookup2 (now : Nat) (l : List (K × CacheItem V))
    (s : LRU K V) (k : K) (it : CacheItem V) (hl : lookup2 s k = some it)
    (hev : evicts (ascendOldGo now l s).2.2 k = false) :
    lookup2 (ascendOldGo now l s).2.1 k = some it := by
  induction l generalizing s with
  | nil => exact hl
  | cons p rest ih =>
    obtain ⟨k0, it0⟩ := p
    unfold ascendOldGo at hev ⊢
    by_cases hk : jhas s.cache k0
    · rw [if_pos hk] at hev ⊢
      exact ih s hl hev
    · rw [if_neg hk] at hev ⊢
      dsimp only at hev ⊢
      obtain ⟨hev1, hev2⟩ := evicts_append_false hev
      by_cases hkk : k0 = k
      · subst hkk
        have hsel := deleteIfExpired_self_of_no_evict s k0 it0 now hev1
        rw [hsel] at hev2 ⊢
        exact ih s hl hev2
      · have hpre : lookup2 (s.deleteIfExpired k0 it0 now).2.1 k = some it := by
          rw [lookup2_deleteIfExpired_ne s it0 now hkk]
          exact hl
        exact ih _ hpre hev2

theorem ascendCacheGo_lookup2 (now : Nat) (l : List (K × CacheItem V))
    (s : LRU K V) (k : K) (it : CacheItem V) (hl : lookup2 s k = some it)
    (hev : evicts (ascendCacheGo now l s).2.2 k = false) :
    lookup2 (ascendCacheGo now l s).2.1 k = some it := by
  induction l generalizing s with
  | nil => exact hl
  | cons p rest ih =>
    obtain ⟨k0, it0⟩ := p
    unfold ascendCacheGo at hev ⊢
    dsimp only at hev ⊢
    obtain ⟨hev1, hev2⟩ := evicts_append_false hev
    by_cases hkk : k0 = k
    · subst hkk
      have hsel := deleteIfExpired_self_of_no_evict s k0 it0 now hev1
      rw [hsel] at hev2 ⊢
      exact ih s hl hev2
    · have hpre : lookup2 (s.deleteIfExpired k0 it0 now).2.1 k = some it := by
        rw [lookup2_deleteIfExpired_ne s it0 now hkk]
        exact hl
      exact ih _ hpre hev2

theorem descendCacheGo_lookup2 (now : Nat) (l : List (K × CacheItem V))
    (s : LRU K V) (k : K) (it : CacheItem V) (hl : lookup2 s k = some it)
    (hev : evicts (descendCacheGo now l s).2.2 k = false) :
    lookup2 (descendCacheGo now l s).2.1 k = some it := by
  induction l generalizing s with
  | nil => exact hl
  | cons p rest ih =>
    obtain ⟨k0, it0⟩ := p
    unfold descendCacheGo at hev ⊢
    dsimp only at hev ⊢
    obtain ⟨hev1, hev2⟩ := evicts_append_false hev
    by_cases hkk : k0 = k
    · subst hkk
      have hsel := deleteIfExpired_self_of_no_evict s k0 it0 now hev1
      rw [hsel] at hev2 ⊢
      exact ih s hl hev2
    · have hpre : lookup2 (s.deleteIfExpired k0 it0 now).2.1 k = some it := by
        rw [lookup2_deleteIfExpired_ne s it0 now hkk]
        exact hl
      exact ih _ hpre hev2

theorem descendOldGo_lookup2 (now : Nat) (l : List (K × CacheItem V))
    (s : LRU K V) (k : K) (it : CacheItem V) (hl : lookup2 s k = some it)
    (hev : evicts (descendOldGo now l s).2.2 k = false) :
    lookup2 (descendOldGo now l s).2.1 k = some it := by
  induction l generalizing s with
  | nil => exact hl
  | cons p rest ih =>
    obtain ⟨k0, it0⟩ := p
    unfold descendOldGo at hev ⊢
    by_cases hk : jhas s.cache k0
    · rw [if_pos hk] at hev ⊢
      exact ih s hl hev
    · rw [if_neg hk] at hev ⊢
      dsimp only at hev ⊢
      obtain ⟨hev1, hev2⟩ := evicts_append_false hev
      by_cases hkk : k0 = k
      · subst hkk
        have hsel := deleteIfExpired_self_of_no_evict s k0 it0 now hev1
        rw [hsel] at hev2 ⊢
        exact ih s hl hev2
      · have hpre : lookup2 (s.deleteIfExpired k0 it0 now).2.1 k = some it := by
          rw [lookup2_deleteIfExpired_ne s it0 now hkk]
          exact hl
        exact ih _ hpre hev2

theorem ascendCacheGo_mem (now : Nat) (l : List (K × CacheItem V))
    (s : LRU K V) (k : K) (it : CacheItem V) (hf : jfind l k = some it)
    (hev : evicts (ascendCacheGo now l s).2.2 k = false) :
    (k, it) ∈ (ascendCacheGo now l s).1 := by
  induction l generalizing s with
  | nil => simp at hf
  | cons p rest ih =>
    obtain ⟨k0, it0⟩ := p
    unfold ascendCacheGo at hev ⊢
    dsimp only at hev ⊢
    obtain ⟨hev1, hev2⟩ := evicts_append_false hev
    by_cases hkk : k0 = k
    · subst hkk
      rw [jfind_cons, if_pos rfl] at hf
      injection hf with hf
      subst hf
      have hsel := deleteIfExpired_self_of_no_evict s k0 it0 now hev1
      rw [hsel]
      simp
    · rw [jfind_cons, if_neg hkk] at hf
      have hmem := ih _ hf hev2
      by_cases hd : (s.deleteIfExpired k0 it0 now).1
      · rw [if_pos hd]
        exact hmem
      · rw [if_neg hd]
        exact List.mem_cons_of_mem _ hmem

theorem ascendOldGo_mem (now : Nat) (l : List (K × CacheItem V))
    (s : LRU K V) (k : K) (it : CacheItem V)
    (hc : jhas s.cache k = false) (hf : jfind l k = some it)
    (hev : evicts (ascendOldGo now l s).2.2 k = false) :
    (k, it) ∈ (ascendOldGo now l s).1 := by
  induction l generalizing s with
  | nil => simp at hf
  | cons p rest ih =>
    obtain ⟨k0, it0⟩ := p
    unfold ascendOldGo at hev ⊢
    by_cases hk : jhas s.cache k0
    · have hkk : k0 ≠ k := by
        intro h
        subst h
        rw [hc] at hk
        exact Bool.false_ne_true hk
      rw [if_pos hk] at hev ⊢
      rw [jfind_cons, if_neg hkk] at hf
      exact ih s hc hf hev
    · rw [if_neg hk] at hev ⊢
      dsimp only at hev ⊢
      obtain ⟨hev1, hev2⟩ := evicts_append_false hev
      by_cases hkk : k0 = k
      · subst hkk
        rw [jfind_cons, if_pos rfl] at hf
        injection hf with hf
        subst hf
        have hsel := deleteIfExpired_self_of_no_evict s k0 it0 now hev1
        rw [hsel]
        simp
      · rw [jfind_cons, if_neg hkk] at hf
        have hc2 : jhas (s.deleteIfExpired k0 it0 now).2.1.cache k = false := by
          by_cases he : expiredAt it0 now
          · rw [deleteIfExpired_of_expired s k0 it0 now he]
            rw [delete_state_cache]
            unfold jhas at hc ⊢
            rw [jfind_jdel_ne _ hkk]
            exact hc
          · rw [deleteIfExpired_of_live s k0 it0 now (by simpa using he)]
            exact hc
        have hmem := ih _ hc2 hf hev2
        by_cases hd : (s.deleteIfExpired k0 it0 now).1
        · rw [if_pos hd]
          exact hmem
        · rw [if_neg hd]
          exact List.mem_cons_of_mem _ hmem

theorem collect_mem (s : LRU K V) (now : Nat) (k : K) (it : CacheItem V)
    (hl : lookup2 s k = some it)
    (hev : evicts (s.collectAscending now).2.2 k = false) :
    (k, it) ∈ (s.collectAscending now).1 := by
  have hcol1 : (s.collectAscending now).1
      = (ascendOldGo now s.oldCache s).1
        ++ (ascendCacheGo now (ascendOldGo now s.oldCache s).2.1.cache
              (ascendOldGo now s.oldCache s).2.1).1 := rfl
  have hcol2 : (s.collectAscending now).2.2
      = (ascendOldGo now s.oldCache s).2.2
        ++ (ascendCacheGo now (ascendOldGo now s.oldCache s).2.1.cache
              (ascendOldGo now s.oldCache s).2.1).2.2 := rfl
  rw [hcol2] at hev
  obtain ⟨hev1, hev2⟩ := evicts_append_false hev
  rw [hcol1]
  rcases lookup2_eq_cases hl with hfc | ⟨hfc, hfo⟩
  · refine List.mem_append_right _ ?_
    refine ascendCacheGo_mem now _ _ k it ?_ hev2
    rw [ascendOldGo_cache]
    exact hfc
  · refine List.mem_append_left _ ?_
    refine ascendOldGo_mem now _ s k it ?_ hfo hev1
    unfold jhas
    rw [hfc]
    rfl

theorem lookup2_resize (s : LRU K V) (m now : Nat) (k : K) (it : CacheItem V)
    (hwf : WF s) (hl : lookup2 s k = some it)
    (hev : evicts (s.resize m now).2 k = false) :
    lookup2 (s.resize m now).1 k = some it := by
  unfold LRU.resize at hev ⊢
  by_cases hm : m = 0
  · rw [if_pos hm] at hev ⊢
    exact hl
  · rw [if_neg hm] at hev ⊢
    dsimp only at hev ⊢
    have hnd := nodup_jkeys_collect s now hwf
    by_cases hlt : (s.collectAscending now).1.length < m
    · rw [if_pos hlt] at hev ⊢
      have hmem := collect_mem s now k it hl hev
      exact lookup2_of_cache (mem_jfind hnd hmem)
    · rw [if_neg hlt] at hev ⊢
      obtain ⟨hev1, hev2⟩ := evicts_append_false hev
      have hmem := collect_mem s now k it hl hev1
      rw [← List.take_append_drop
        ((s.collectAscending now).1.length - m) (s.collectAscending now).1] at hmem
      rcases List.mem_append.mp hmem with hmt | hmd
      · exact absurd hmt (not_mem_of_evicts_map_false _ k hev2 it)
      · have hndd : (jkeys ((s.collectAscending now).1.drop
            ((s.collectAscending now).1.length - m))).Nodup :=
          ((List.drop_sublist _ _).map Prod.fst).nodup hnd
        exact lookup2_of_old rfl (mem_jfind hndd hmd)

theorem lookup2_stepE (s : LRU K V) (k : K) (it : CacheItem V) (op : Op K V)
    (hwf : WF s) (hl : lookup2 s k = some it)
    (hop : opRemoves k s op = false) :
    lookup2 (stepE s op).1 k = some it := by
  have hev : evicts (stepE s op).2 k = false := by
    unfold opRemoves at hop
    exact (Bool.or_eq_false_iff.mp hop).2
  cases op with
  | del k2 =>
    have hne : k2 ≠ k := by
      unfold opRemoves at hop
      have h1 := (Bool.or_eq_false_iff.mp hop).1
      simpa using h1
    show lookup2 (s.delete k2).2 k = some it
    rw [lookup2_delete_ne s hne]
    exact hl
  | clear =>
    exfalso
    unfold opRemoves at hop
    simp at hop
  | set k2 v mo t =>
    have hne : k2 ≠ k := by
      unfold opRemoves at hop
      have h1 := (Bool.or_eq_false_iff.mp hop).1
      simpa using h1
    show lookup2 (s.set k2 v mo t).1 k = some it
    rw [lookup2_set_ne s v mo t hne hev]
    exact hl
  | get k2 t =>
    have hev2 : evicts (s.get k2 t).2.2 k = false := hev
    show lookup2 (s.get k2 t).2.1 k = some it
    unfold LRU.get at hev2 ⊢
    by_cases hc : jhas s.cache k2
    · rw [if_pos hc] at hev2 ⊢
      cases hfc : jfind s.cache k2 with
      | none => exact hl
      | some it2 =>
        rw [hfc] at hev2
        dsimp only at hev2 ⊢
        by_cases hkk : k2 = k
        · subst hkk
          rw [getItemValue_self_of_no_evict s k2 it2 t hev2]
          exact hl
        · rw [lookup2_getItemValue_ne s it2 t hkk]
          exact hl
    · rw [if_neg hc] at hev2 ⊢
      by_cases ho : jhas s.oldCache k2
      · rw [if_pos ho] at hev2 ⊢
        cases hfo : jfind s.oldCache k2 with
        | none => exact hl
        | some it2 =>
          rw [hfo] at hev2
          dsimp only at hev2 ⊢
          by_cases hd : (s.deleteIfExpired k2 it2 t).1
          · rw [if_pos hd] at hev2 ⊢
            by_cases hkk : k2 = k
            · subst hkk
              have hsel := deleteIfExpired_self_of_no_evict s k2 it2 t hev2
              rw [hsel] at hd
              exact absurd hd (by simp)
            · rw [lookup2_deleteIfExpired_ne s it2 t hkk]
              exact hl
          · rw [if_neg hd] at hev2 ⊢
            obtain ⟨hea, heb⟩ := evicts_append_false hev2
            by_cases hkk : k2 = k
            · subst hkk
              have hit : it2 = it := by
                have := lookup2_eq_cases hl
                rcases this with h1 | ⟨h1, h2⟩
                · rw [jfind_eq_none_of_not_has s.cache k2 (by simpa using hc)] at h1
                  exact absurd h1 (by simp)
                · rw [hfo] at h2
                  injection h2
              subst hit
              have hsel := deleteIfExpired_self_of_no_evict s k2 it2 t hea
              rw [hsel]
              exact lookup2_moveToRecent_self s k2 it2
            · have hpre : lookup2 (s.deleteIfExpired k2 it2 t).2.1 k = some it := by
                rw [lookup2_deleteIfExpired_ne s it2 t hkk]
                exact hl
              rw [lookup2_moveToRecent_ne _ it2 hkk heb]
              exact hpre
      · rw [if_neg ho] at hev2 ⊢
        exact hl
  | has k2 t =>
    have hev2 : evicts (s.has k2 t).2.2 k = false := hev
    show lookup2 (s.has k2 t).2.1 k = some it
    unfold LRU.has at hev2 ⊢
    by_cases hc : jhas s.cache k2
    · rw [if_pos hc] at hev2 ⊢
      cases hfc : jfind s.cache k2 with
      | none => exact hl
      | some it2 =>
        rw [hfc] at hev2
        dsimp only at hev2 ⊢
        by_cases hkk : k2 = k
        · subst hkk
          rw [deleteIfExpired_self_of_no_evict s k2 it2 t hev2]
          exact hl
        · rw [lookup2_deleteIfExpired_ne s it2 t hkk]
          exact hl
    · rw [if_neg hc] at hev2 ⊢
      by_cases ho : jhas s.oldCache k2
      · rw [if_pos ho] at hev2 ⊢
        cases hfo : jfind s.oldCache k2 with
        | none => exact hl
        | some it2 =>
          rw [hfo] at hev2
          dsimp only at hev2 ⊢
          by_cases hkk : k2 = k
          · subst hkk
            rw [deleteIfExpired_self_of_no_evict s k2 it2 t hev2]
            exact hl
          · rw [lookup2_deleteIfExpired_ne s it2 t hkk]
            exact hl
      · rw [if_neg ho] at hev2 ⊢
        exact hl
  | peek k2 t =>
    have hev2 : evicts (s.peek k2 t).2.2 k = false := hev
    show lookup2 (s.peek k2 t).2.1 k = some it
    unfold LRU.peek LRU.peekIn at hev2 ⊢
    by_cases hc : jhas s.cache k2
    · rw [if_pos hc] at hev2 ⊢
      cases hfc : jfind s.cache k2 with
      | none => exact hl
      | some it2 =>
        rw [hfc] at hev2
        dsimp only at hev2 ⊢
        by_cases hkk : k2 = k
        · subst hkk
          rw [getItemValue_self_of_no_evict s k2 it2 t hev2]
          exact hl
        · rw [lookup2_getItemValue_ne s it2 t hkk]
          exact hl
    · rw [if_neg hc] at hev2 ⊢
      by_cases ho : jhas s.oldCache k2
      · rw [if_pos ho] at hev2 ⊢
        cases hfo : jfind s.oldCache k2 with
        | none => exact hl
        | some it2 =>
          rw [hfo] at hev2
          dsimp only at hev2 ⊢
          by_cases hkk : k2 = k
          · subst hkk
            rw [getItemValue_self_of_no_evict s k2 it2 t hev2]
            exact hl
          · rw [lookup2_getItemValue_ne s it2 t hkk]
            exact hl
      · rw [if_neg ho] at hev2 ⊢
        exact hl
  | resize m t =>
    exact lookup2_resize s m t k it hwf hl hev
  | ascend t =>
    have hev2 : evicts (s.collectAscending t).2.2 k = false := hev
    show lookup2 (s.collectAscending t).2.1 k = some it
    have hcol : (s.collectAscending t).2.2
        = (ascendOldGo t s.oldCache s).2.2
          ++ (ascendCacheGo t (ascendOldGo t s.oldCache s).2.1.cache
                (ascendOldGo t s.oldCache s).2.1).2.2 := rfl
    rw [hcol] at hev2
    obtain ⟨hea, heb⟩ := evicts_append_false hev2
    exact ascendCacheGo_lookup2 t _ _ k it
      (ascendOldGo_lookup2 t s.oldCache s k it hl hea) heb
  | descend t =>
    have hev2 : evicts (s.entriesDescendingL t).2.2 k = false := hev
    show lookup2 (s.entriesDescendingL t).2.1 k = some it
    have hcol : (s.entriesDescendingL t).2.2
        = (descendCacheGo t s.cache.reverse s).2.2
          ++ (descendOldGo t (descendCacheGo t s.cache.reverse s).2.1.oldCache.reverse
                (descendCacheGo t s.cache.reverse s).2.1).2.2 := rfl
    rw [hcol] at hev2
    obtain ⟨hea, heb⟩ := evicts_append_false hev2
    exact descendOldGo_lookup2 t _ _ k it
      (descendCacheGo_lookup2 t s.cache.reverse s k it hl hea) heb

theorem lookup2_runOps (k : K) (it : CacheItem V) (ops : List (Op K V))
    (s : LRU K V) (hwf : WF s) (hl : lookup2 s k = some it)
    (hkept : keptAlong k s ops = true) :
    lookup2 (runOps s ops) k = some it := by
  induction ops generalizing s with
  | nil => exact hl
  | cons op rest ih =>
    unfold keptAlong at hkept
    simp only [Bool.and_eq_true, Bool.not_eq_true'] at hkept
    exact ih _ (WF_stepE s op hwf)
      (lookup2_stepE s k it op hwf hl hkept.1) hkept.2

theorem get_of_lookup2 (s : LRU K V) (k : K) (it : CacheItem V) (t : Nat)
    (hl : lookup2 s k = some it) (hlive : expiredAt it t = false) :
    (s.get k t).1 = some it.value := by
  rcases lookup2_eq_cases hl with hfc | ⟨hfc, hfo⟩
  · unfold LRU.get
    have hcb : jhas s.cache k = true := by
      unfold jhas
      rw [hfc]
      rfl
    rw [if_pos hcb, hfc]
    dsimp only
    unfold LRU.getItemValue
    by_cases ht : truthyExpiry it
    · rw [if_pos ht, deleteIfExpired_of_live s k it t hlive]
      rfl
    · rw [if_neg ht]
  · unfold LRU.get
    have hcb : jhas s.cache k = false := by
      unfold jhas
      rw [hfc]
      rfl
    have hob : jhas s.oldCache k = true := by
      unfold jhas
      rw [hfo]
      rfl
    rw [if_neg (by simp [hcb]), if_pos hob, hfo]
    dsimp only
    rw [deleteIfExpired_of_live s k it t hlive]
    rfl

/-- Claim C2: for every key `k`, once `set(k, v)` has been performed, as
long as no subsequent operation removes `k` (no `delete k`, no `clear`, no
further `set` to `k`, and no operation that evicts `k` — by rotation, by
resize overflow, or by lazy TTL expiry) and the stored entry has not yet
reached its expiry time, `get(k)` returns exactly `v`. -/
theorem C2_read_your_write (s : LRU K V) (k : K) (v : V)
    (mo : Option (Option Nat)) (t0 : Nat) (ops : List (Op K V)) (t : Nat)
    (hwf : WF s)
    (hkept : keptAlong k (s.set k v mo t0).1 ops = true)
    (hlive : expiredAt ⟨v, expiryFor (mo.getD s.maxAge) t0⟩ t = false) :
    ((runOps (s.set k v mo t0).1 ops).get k t).1 = some v := by
  have h1 := lookup2_set_self s k v mo t0
  have h2 := lookup2_runOps k _ ops _ (WF_set s k v mo t0 hwf) h1 hkept
  exact get_of_lookup2 _ k _ t h2 hlive

/-- Witness for C2: on a cache with `maxSize 3`, `set(1, 10)` followed by
operations on other keys (including a rotation-free insert and a lookup)
leaves `get(1)` returning `10`. -/
theorem C2_read_your_write_witness :
    WF (LRU.init 3 none : LRU Nat Nat) ∧
      keptAlong 1 ((LRU.init 3 none : LRU Nat Nat).set 1 10 none 0).1
        [Op.set 2 20 none 1, Op.get 2 2, Op.has 1 3, Op.peek 2 4] = true ∧
      ((runOps ((LRU.init 3 none : LRU Nat Nat).set 1 10 none 0).1
          [Op.set 2 20 none 1, Op.get 2 2, Op.has 1 3, Op.peek 2 4]).get 1 5).1
        = some 10 :=
  ⟨by decide, by decide,
    C2_read_your_write (LRU.init 3 none) 1 10 none 0
      [Op.set 2 20 none 1, Op.get 2 2, Op.has 1 3, Op.peek 2 4] 5
      (by decide) (by decide) (by decide)⟩

/-- Claim C7: the concrete `maxSize = 2`, no-TTL scenario.  `set(1,1)` then
`set(2,2)` rotates with zero eviction notifications; `get(1)` returns `1`
and promotes key `1` into the active generation; `set(3,3)` rotates again
firing exactly one notification `(2, 2)` and leaves the previous generation
`{1 ↦ 1, 3 ↦ 3}`; afterwards `get(2)` is a miss while `get(1)` and `get(3)`
return `1` and `3`. -/
theorem C7_concrete_scenario :
    (((LRU.init 2 none : LRU Nat Nat).set 1 1 none 0).2 = []) ∧
    ((((LRU.init 2 none : LRU Nat Nat).set 1 1 none 0).1.set 2 2 none 0).2 = []) ∧
    (let s2 := (((LRU.init 2 none : LRU Nat Nat).set 1 1 none 0).1.set 2 2 none 0).1
     s2.cache = [] ∧ s2.oldCache = [(1, ⟨1, none⟩), (2, ⟨2, none⟩)] ∧
     (s2.get 1 0).1 = some 1 ∧
     (let s3 := (s2.get 1 0).2.1
      s3.cache = [(1, ⟨1, none⟩)] ∧ s3.oldCache = [(2, ⟨2, none⟩)] ∧
      (s3.set 3 3 none 0).2 = [(2, 2)] ∧
      (let s4 := (s3.set 3 3 none 0).1
       s4.cache = [] ∧ s4.oldCache = [(1, ⟨1, none⟩), (3, ⟨3, none⟩)] ∧
       (s4.get 2 0).1 = none ∧ (s4.get 1 0).1 = some 1 ∧
       (s4.get 3 0).1 = some 3))) := by
  decide

/-- Claim C3 evaluated at its failing input: on the facade, after
`set(1, 10)` then `delete(1)`, the engine no longer holds key `1`, but the
mirror map was never touched by `delete`, so `keys()`, `values()` and
`entries()` all still yield the deleted key — contradicting the documented
contract that every `delete` is applied to both the engine and the mirror. -/
theorem C3_delete_skips_mirror :
    (let q1 := ((QuickLRU.init 2 none : QuickLRU Nat Nat).set 1 10 0).1
     (q1.delete 1).1 = true ∧
     ((q1.delete 1).2.base.get 1 0).1 = none ∧
     ((q1.delete 1).2.base.has 1 0).1 = false ∧
     (q1.delete 1).2.keys = [1] ∧
     (q1.delete 1).2.values = [10] ∧
     (q1.delete 1).2.entries = [(1, 10)]) := by
  decide

/-- Claim C4 refuted at the boundary `overflow = 0`: a cache holding one
live entry resized to `maxSize 1` does not make that entry the new active
generation with active-count 1 — the source's `removeCount < 0` test sends
the boundary case to the other branch, which makes the collected entries
the new previous generation, empties the active one and zeroes the
counter (still with no eviction notifications). -/
theorem C4_boundary_counterexample :
    (let s1 := ((LRU.init 2 none : LRU Nat Nat).set 1 10 none 0).1
     (s1.resize 1 5).1.cache = [] ∧
     (s1.resize 1 5).1.oldCache = [(1, ⟨10, none⟩)] ∧
     (s1.resize 1 5).1.sz = 0 ∧
     (s1.resize 1 5).2 = [] ∧
     ¬ ((s1.resize 1 5).1.cache = [(1, ⟨10, none⟩)] ∧
        (s1.resize 1 5).1.oldCache = [] ∧ (s1.resize 1 5).1.sz = 1)) := by
  decide

/-- The number of distinct, physically live, non-expired keys across both
generations (shadowed previous copies counted once), used to compare the
`size` getter against the spec's description. -/
def liveNonExpiredCount (s : LRU K V) (t : Nat) : Nat :=
  ((s.cache ++ s.oldCache.filter (fun p => !(jhas s.cache p.1))).filter
    (fun p => !(expiredAt p.2 t))).length

/-- Claim C6 refuted: the `size` getter never consults expiry, so a
physically present entry whose expiry has passed is still counted.  On a
`maxSize 2`, default-TTL-5 cache, after `set(1,10)` at time 0, at time 10
`size` still reports 1 although the count of non-expired live keys is 0. -/
theorem C6_expired_entry_counted :
    (let s1 := ((LRU.init 2 (some 5) : LRU Nat Nat).set 1 10 none 0).1
     s1.size = 1 ∧ liveNonExpiredCount s1 10 = 0 ∧
     ¬ s1.size = (liveNonExpiredCount s1 10 : Int)) := by
  decide

/-- Claim C6 amended: at every well-formed state the reported `size` equals
`min(maxSize, active-count + |previous keys not in active|)` — with no
expiry check, so expired-but-unvisited entries are included in the count. -/
theorem C6_size_formula (s : LRU K V) (h : WF s) :
    s.size = min (s.maxSize : Int) (s.sz + (s.oldNotShadowed : Int)) := by
  obtain ⟨h1, h2, h3, h4, h5⟩ := h
  unfold LRU.size
  by_cases hz : s.sz = 0
  · rw [if_pos hz]
    have hc : s.cache = [] := by
      rw [hz] at h1
      have : s.cache.length = 0 := by exact_mod_cast h1.symm
      exact List.length_eq_zero.mp this
    have hcnt : s.oldNotShadowed = s.oldCache.length := by
      unfold LRU.oldNotShadowed
      rw [hc]
      simp
    rw [hz, hcnt]
    have h3i : (0 : Int) + (s.oldCache.length : Int) ≤ (s.maxSize : Int) := by
      omega
    rw [min_eq_right h3i]
    simp
  · rw [if_neg hz, min_comm]

/-- Witness for the amended C6 on a reachable state holding one entry in
each generation (after a rotation and a fresh insert). -/
theorem C6_size_formula_witness :
    (let s1 := runOps (LRU.init 2 (some 5) : LRU Nat Nat)
        [Op.set 1 10 none 0, Op.set 2 20 none 0, Op.set 3 30 none 1]
     WF s1 ∧ s1.size = min (s1.maxSize : Int) (s1.sz + (s1.oldNotShadowed : Int))) :=
  ⟨by decide,
    C6_size_formula (runOps (LRU.init 2 (some 5) : LRU Nat Nat)
      [Op.set 1 10 none 0, Op.set 2 20 none 0, Op.set 3 30 none 1]) (by decide)⟩

/-- Claim C10 refuted at the expiry-zero edge: `set(1, 10, {maxAge: 0})`
performed at time 0 stores `expiry = 0`; `0 ≤ 5`, yet `get(1)` at time 5
returns the stored value with no eviction and no state change, because
`#getItemValue` tests the truthiness of `item.expiry` and a numeric `0` is
falsy in JavaScript. -/
theorem C10_expiry_zero_counterexample :
    (let s1 := ((LRU.init 2 none : LRU Nat Nat).set 1 10 (some (some 0)) 0).1
     lookup2 s1 1 = some ⟨10, some 0⟩ ∧
     (s1.get 1 5).1 = some 10 ∧ (s1.get 1 5).2.2 = [] ∧
     (s1.get 1 5).2.1 = s1 ∧
     ¬ (s1.get 1 5).1 = none) := by
  decide

/-- Claim C4 amended: when the collected live entries number strictly fewer
than `newMaxSize`, `resize` makes them the new active generation, empties
the previous one, sets the active-count to their number, and fires only the
lazy-expiry notifications recorded while collecting (no overflow
evictions).  In the boundary case (collected count equal to `newMaxSize`,
overflow 0) the collected entries instead become the new previous
generation, the active generation is emptied and the count reset to 0 —
still with no overflow evictions. -/
theorem C4_resize_without_overflow (s : LRU K V) (m t : Nat) (hm : m ≠ 0) :
    ((s.collectAscending t).1.length < m →
        (s.resize m t).1
            = ⟨((s.collectAscending t).1.length : Int), (s.collectAscending t).1,
                [], m, (s.collectAscending t).2.1.maxAge⟩
          ∧ (s.resize m t).2 = (s.collectAscending t).2.2)
    ∧ ((s.collectAscending t).1.length = m →
        (s.resize m t).1
            = ⟨0, [], (s.collectAscending t).1, m, (s.collectAscending t).2.1.maxAge⟩
          ∧ (s.resize m t).2 = (s.collectAscending t).2.2) := by
  constructor
  · intro hlt
    unfold LRU.resize
    rw [if_neg hm]
    dsimp only
    rw [if_pos hlt]
    exact ⟨rfl, rfl⟩
  · intro heq
    unfold LRU.resize
    rw [if_neg hm]
    dsimp only
    rw [if_neg (by omega)]
    constructor
    · simp [heq]
    · simp [heq]

/-- Witness for the amended C4, exercising both the strict case
(`resize 3` on one live entry) and the boundary case (`resize 1`). -/
theorem C4_resize_without_overflow_witness :
    ((((LRU.init 2 none : LRU Nat Nat).set 1 10 none 0).1.collectAscending 5).1.length < 3
        ∧ ((((LRU.init 2 none : LRU Nat Nat).set 1 10 none 0).1.resize 3 5).1
            = ⟨(((((LRU.init 2 none : LRU Nat Nat).set 1 10 none 0).1.collectAscending
                  5).1.length : Int)),
                ((((LRU.init 2 none : LRU Nat Nat).set 1 10 none 0).1.collectAscending 5).1),
                [], 3,
                ((((LRU.init 2 none : LRU Nat Nat).set 1 10 none 0).1.collectAscending
                  5).2.1.maxAge)⟩
          ∧ (((LRU.init 2 none : LRU Nat Nat).set 1 10 none 0).1.resize 3 5).2
            = ((((LRU.init 2 none : LRU Nat Nat).set 1 10 none 0).1.collectAscending 5).2.2)))
    ∧ (((((LRU.init 2 none : LRU Nat Nat).set 1 10 none 0).1.collectAscending 5).1.length = 1)
        ∧ ((((LRU.init 2 none : LRU Nat Nat).set 1 10 none 0).1.resize 1 5).1
            = ⟨0, [],
                ((((LRU.init 2 none : LRU Nat Nat).set 1 10 none 0).1.collectAscending 5).1),
                1,
                ((((LRU.init 2 none : LRU Nat Nat).set 1 10 none 0).1.collectAscending
                  5).2.1.maxAge)⟩
          ∧ (((LRU.init 2 none : LRU Nat Nat).set 1 10 none 0).1.resize 1 5).2
            = ((((LRU.init 2 none : LRU Nat Nat).set 1 10 none 0).1.collectAscending 5).2.2))) :=
  ⟨⟨by decide,
      (C4_resize_without_overflow ((LRU.init 2 none : LRU Nat Nat).set 1 10 none 0).1
        3 5 (by decide)).1 (by decide)⟩,
    ⟨by decide,
      (C4_resize_without_overflow ((LRU.init 2 none : LRU Nat Nat).set 1 10 none 0).1
        1 5 (by decide)).2 (by decide)⟩⟩

theorem lookup2_delete_self (s : LRU K V) (k : K) :
    lookup2 (s.delete k).2 k = none := by
  unfold lookup2
  rw [delete_state_cache, delete_state_old, jfind_jdel_self]
  dsimp only
  exact jfind_jdel_self _ _

/-- Claim C10 amended: an entry stored with a finite per-call `maxAge m` at
time `t` records `expiry = t + m`; for any stored entry with finite,
nonzero expiry `e`, at any time `t` with `e ≤ t` (expiry inclusive) `get`,
`has` and `peek` all report the key absent, delete the entry from both
generations and fire exactly one eviction notification, while at `t < e`
they return the stored value.  The nonzero proviso is forced by the
source's falsy-expiry test (see the counterexample): at `e = 0`, `get` and
`peek` return the value without expiring it. -/
theorem C10_inclusive_expiry :
    (∀ (s : LRU K V) (k : K) (v : V) (m t : Nat),
        lookup2 (s.set k v (some (some m)) t).1 k = some ⟨v, some (t + m)⟩)
    ∧ (∀ (s : LRU K V) (k : K) (it : CacheItem V) (e t : Nat),
        lookup2 s k = some it → it.expiry = some e → 0 < e → e ≤ t →
          ((s.get k t).1 = none ∧ lookup2 (s.get k t).2.1 k = none
              ∧ (s.get k t).2.2 = [(k, it.value)])
          ∧ ((s.has k t).1 = false ∧ lookup2 (s.has k t).2.1 k = none
              ∧ (s.has k t).2.2 = [(k, it.value)])
          ∧ ((s.peek k t).1 = none ∧ lookup2 (s.peek k t).2.1 k = none
              ∧ (s.peek k t).2.2 = [(k, it.value)]))
    ∧ (∀ (s : LRU K V) (k : K) (it : CacheItem V) (e t : Nat),
        lookup2 s k = some it → it.expiry = some e → t < e →
          (s.get k t).1 = some it.value ∧ (s.has k t).1 = true
            ∧ (s.peek k t).1 = some it.value) := by
  refine ⟨?_, ?_, ?_⟩
  · intro s k v m t
    exact lookup2_set_self s k v (some (some m)) t
  · intro s k it e t hl hx h0 he
    have hexp : expiredAt it t = true := by
      unfold expiredAt
      rw [hx]
      exact decide_eq_true he
    have htr : truthyExpiry it = true := by
      unfold truthyExpiry
      rw [hx]
      exact decide_eq_true (Nat.pos_iff_ne_zero.mp h0)
    rcases lookup2_eq_cases hl with hfc | ⟨hfc, hfo⟩
    · have hcb : jhas s.cache k = true := by
        unfold jhas
        rw [hfc]
        rfl
      have hdel1 : (s.delete k).1 = true := by
        rw [delete_fst, hcb]
        simp
      refine ⟨?_, ?_, ?_⟩
      · unfold LRU.get
        rw [if_pos hcb, hfc]
        dsimp only
        unfold LRU.getItemValue
        rw [if_pos htr, deleteIfExpired_of_expired s k it t hexp]
        dsimp only
        rw [hdel1]
        exact ⟨rfl, lookup2_delete_self s k, rfl⟩
      · unfold LRU.has
        rw [if_pos hcb, hfc]
        dsimp only
        rw [deleteIfExpired_of_expired s k it t hexp]
        dsimp only
        rw [hdel1]
        exact ⟨rfl, lookup2_delete_self s k, rfl⟩
      · unfold LRU.peek LRU.peekIn
        rw [if_pos hcb, hfc]
        dsimp only
        unfold LRU.getItemValue
        rw [if_pos htr, deleteIfExpired_of_expired s k it t hexp]
        dsimp only
        rw [hdel1]
        exact ⟨rfl, lookup2_delete_self s k, rfl⟩
    · have hcb : jhas s.cache k = false := by
        unfold jhas
        rw [hfc]
        rfl
      have hob : jhas s.oldCache k = true := by
        unfold jhas
        rw [hfo]
        rfl
      have hdel1 : (s.delete k).1 = true := by
        rw [delete_fst, hob]
        simp
      refine ⟨?_, ?_, ?_⟩
      · unfold LRU.get
        rw [if_neg (by simp [hcb]), if_pos hob, hfo]
        dsimp only
        rw [deleteIfExpired_of_expired s k it t hexp]
        dsimp only
        rw [hdel1]
        exact ⟨rfl, lookup2_delete_self s k, rfl⟩
      · unfold LRU.has
        rw [if_neg (by simp [hcb]), if_pos hob, hfo]
        dsimp only
        rw [deleteIfExpired_of_expired s k it t hexp]
        dsimp only
        rw [hdel1]
        exact ⟨rfl, lookup2_delete_self s k, rfl⟩
      · unfold LRU.peek LRU.peekIn
        rw [if_neg (by simp [hcb]), if_pos hob, hfo]
        dsimp only
        unfold LRU.getItemValue
        rw [if_pos htr, deleteIfExpired_of_expired s k it t hexp]
        dsimp only
        rw [hdel1]
        exact ⟨rfl, lookup2_delete_self s k, rfl⟩
  · intro s k it e t hl hx hlt
    have hlive : expiredAt it t = false := by
      unfold expiredAt
      rw [hx]
      exact decide_eq_false (Nat.not_le.mpr hlt)
    refine ⟨get_of_lookup2 s k it t hl hlive, ?_, ?_⟩
    · rcases lookup2_eq_cases hl with hfc | ⟨hfc, hfo⟩
      · have hcb : jhas s.cache k = true := by
          unfold jhas
          rw [hfc]
          rfl
        unfold LRU.has
        rw [if_pos hcb, hfc]
        dsimp only
        rw [deleteIfExpired_of_live s k it t hlive]
        rfl
      · have hcb : jhas s.cache k = false := by
          unfold jhas
          rw [hfc]
          rfl
        have hob : jhas s.oldCache k = true := by
          unfold jhas
          rw [hfo]
          rfl
        unfold LRU.has
        rw [if_neg (by simp [hcb]), if_pos hob, hfo]
        dsimp only
        rw [deleteIfExpired_of_live s k it t hlive]
        rfl
    · rcases lookup2_eq_cases hl with hfc | ⟨hfc, hfo⟩
      · have hcb : jhas s.cache k = true := by
          unfold jhas
          rw [hfc]
          rfl
        unfold LRU.peek LRU.peekIn
        rw [if_pos hcb, hfc]
        dsimp only
        unfold LRU.getItemValue
        by_cases htr : truthyExpiry it
        · rw [if_pos htr, deleteIfExpired_of_live s k it t hlive]
          rfl
        · rw [if_neg htr]
      · have hcb : jhas s.cache k = false := by
          unfold jhas
          rw [hfc]
          rfl
        have hob : jhas s.oldCache k = true := by
          unfold jhas
          rw [hfo]
          rfl
        unfold LRU.peek LRU.peekIn
        rw [if_neg (by simp [hcb]), if_pos hob, hfo]
        dsimp only
        unfold LRU.getItemValue
        by_cases htr : truthyExpiry it
        · rw [if_pos htr, deleteIfExpired_of_live s k it t hlive]
          rfl
        · rw [if_neg htr]

/-- Witness for the amended C10 on a cache whose key `1` carries expiry 5:
expired behaviour at `t = 7`, live behaviour at `t = 3`, and the expiry
arithmetic of `set` with a per-call `maxAge`. -/
theorem C10_inclusive_expiry_witness :
    (lookup2 (((LRU.init 2 none : LRU Nat Nat).set 1 10 (some (some 5)) 2).1) 1
        = some ⟨10, some 7⟩)
    ∧ (lookup2 (((LRU.init 2 (some 5) : LRU Nat Nat).set 1 10 none 0).1) 1
        = some ⟨10, some 5⟩)
    ∧ (((((LRU.init 2 (some 5) : LRU Nat Nat).set 1 10 none 0).1.get 1 7).1 = none
        ∧ lookup2 ((((LRU.init 2 (some 5) : LRU Nat Nat).set 1 10 none 0).1.get 1 7).2.1) 1
            = none
        ∧ (((LRU.init 2 (some 5) : LRU Nat Nat).set 1 10 none 0).1.get 1 7).2.2
            = [(1, 10)])
      ∧ ((((LRU.init 2 (some 5) : LRU Nat Nat).set 1 10 none 0).1.has 1 7).1 = false
        ∧ lookup2 ((((LRU.init 2 (some 5) : LRU Nat Nat).set 1 10 none 0).1.has 1 7).2.1) 1
            = none
        ∧ (((LRU.init 2 (some 5) : LRU Nat Nat).set 1 10 none 0).1.has 1 7).2.2
            = [(1, 10)])
      ∧ ((((LRU.init 2 (some 5) : LRU Nat Nat).set 1 10 none 0).1.peek 1 7).1 = none
        ∧ lookup2 ((((LRU.init 2 (some 5) : LRU Nat Nat).set 1 10 none 0).1.peek 1 7).2.1) 1
            = none
        ∧ (((LRU.init 2 (some 5) : LRU Nat Nat).set 1 10 none 0).1.peek 1 7).2.2
            = [(1, 10)]))
    ∧ ((((LRU.init 2 (some 5) : LRU Nat Nat).set 1 10 none 0).1.get 1 3).1 = some 10
        ∧ (((LRU.init 2 (some 5) : LRU Nat Nat).set 1 10 none 0).1.has 1 3).1 = true
        ∧ (((LRU.init 2 (some 5) : LRU Nat Nat).set 1 10 none 0).1.peek 1 3).1 = some 10) :=
  ⟨C10_inclusive_expiry.1 (LRU.init 2 none) 1 10 5 2,
    by decide,
    C10_inclusive_expiry.2.1 ((LRU.init 2 (some 5) : LRU Nat Nat).set 1 10 none 0).1
      1 ⟨10, some 5⟩ 5 7 (by decide) rfl (by decide) (by decide),
    C10_inclusive_expiry.2.2 ((LRU.init 2 (some 5) : LRU Nat Nat).set 1 10 none 0).1
      1 ⟨10, some 5⟩ 5 3 (by decide) rfl (by decide)⟩

/-- The cache state observed by the caller when an operation propagates a
callback exception (`none` when the operation returned normally). -/
def errState {α : Type} : Except (LRU K V) α → Option (LRU K V)
  | .error s => some s
  | .ok _ => none

/-- Claim C5 refuted: on a cache holding key `1` with expiry 5, running
`get(1)` at time 7 with an `onEviction` callback that throws leaves the
cache in exactly its pre-call state — the expired entry is still physically
present in the active generation — because `#deleteIfExpired` invokes
`onEviction` before `this.delete(key)`.  The state observed at the throw is
therefore not consistent with the eviction having been applied. -/
theorem C5_notify_before_delete_counterexample :
    (let sC := ((LRU.init 2 (some 5) : LRU Nat Nat).set 1 10 none 0).1
     errState (sC.getT (fun k2 => k2 == 1) 1 7) = some sC
     ∧ jfind sC.cache 1 = some ⟨10, some 5⟩
     ∧ ¬ jfind sC.cache 1 = none) := by
  decide

instance {ε α : Type} [DecidableEq ε] [DecidableEq α] :
    DecidableEq (Except ε α) := fun a b =>
  match a, b with
  | .error x, .error y =>
    if h : x = y then isTrue (by rw [h])
    else isFalse (fun hc => h (by injection hc))
  | .error _, .ok _ => isFalse (fun hc => Except.noConfusion hc)
  | .ok _, .error _ => isFalse (fun hc => Except.noConfusion hc)
  | .ok x, .ok y =>
    if h : x = y then isTrue (by rw [h])
    else isFalse (fun hc => h (by injection hc))

theorem deleteIfExpiredT_of_live (s : LRU K V) (thr : K → Bool) (k : K)
    (it : CacheItem V) (now : Nat) (h : expiredAt it now = false) :
    s.deleteIfExpiredT thr k it now = .ok (false, s) := by
  simp [LRU.deleteIfExpiredT, h]

theorem deleteIfExpiredT_of_throw (s : LRU K V) (thr : K → Bool) (k : K)
    (it : CacheItem V) (now : Nat) (hexp : expiredAt it now = true)
    (hthr : thr k = true) : s.deleteIfExpiredT thr k it now = .error s := by
  simp [LRU.deleteIfExpiredT, hexp, hthr]

theorem deleteIfExpiredT_error_inv {s e2 : LRU K V} {thr : K → Bool} {k : K}
    {it : CacheItem V} {now : Nat}
    (h : s.deleteIfExpiredT thr k it now = .error e2) :
    e2 = s ∧ thr k = true ∧ expiredAt it now = true := by
  unfold LRU.deleteIfExpiredT at h
  by_cases hexp : expiredAt it now
  · rw [if_pos hexp] at h
    by_cases hthr : thr k
    · rw [if_pos hthr] at h
      injection h with h
      exact ⟨h.symm, hthr, hexp⟩
    · rw [if_neg hthr] at h
      exact Except.noConfusion h
  · rw [if_neg hexp] at h
    exact Except.noConfusion h

theorem deleteIfExpiredT_ok_inv {s : LRU K V} {thr : K → Bool} {k : K}
    {it : CacheItem V} {now : Nat} {pr : Bool × LRU K V}
    (h : s.deleteIfExpiredT thr k it now = .ok pr) :
    pr.2 = s ∨ pr.2 = (s.delete k).2 := by
  unfold LRU.deleteIfExpiredT at h
  by_cases hexp : expiredAt it now
  · rw [if_pos hexp] at h
    by_cases hthr : thr k
    · rw [if_pos hthr] at h
      exact Except.noConfusion h
    · rw [if_neg hthr] at h
      injection h with h
      right
      rw [← h]
  · rw [if_neg hexp] at h
    injection h with h
    left
    rw [← h]

theorem deleteIfExpiredT_ok_jfind {s : LRU K V} {thr : K → Bool} {k : K}
    {it : CacheItem V} {now : Nat} {pr : Bool × LRU K V}
    (h : s.deleteIfExpiredT thr k it now = .ok pr) {k2 : K} (hne : k ≠ k2) :
    jfind pr.2.cache k2 = jfind s.cache k2
      ∧ jfind pr.2.oldCache k2 = jfind s.oldCache k2 := by
  rcases deleteIfExpiredT_ok_inv h with h1 | h1 <;> rw [h1]
  · exact ⟨rfl, rfl⟩
  · rw [delete_state_cache, delete_state_old]
    exact ⟨jfind_jdel_ne _ hne, jfind_jdel_ne _ hne⟩

theorem deleteIfExpiredT_ok_cache_of_not_has {s : LRU K V} {thr : K → Bool}
    {k : K} {it : CacheItem V} {now : Nat} {pr : Bool × LRU K V}
    (h : s.deleteIfExpiredT thr k it now = .ok pr)
    (hk : jhas s.cache k = false) : pr.2.cache = s.cache := by
  rcases deleteIfExpiredT_ok_inv h with h1 | h1
  · rw [h1]
  · rw [h1, delete_state_cache]
    exact jdel_of_not_has _ _ hk

theorem deleteIfExpiredT_ok_maxSize {s : LRU K V} {thr : K → Bool} {k : K}
    {it : CacheItem V} {now : Nat} {pr : Bool × LRU K V}
    (h : s.deleteIfExpiredT thr k it now = .ok pr) :
    pr.2.maxSize = s.maxSize := by
  rcases deleteIfExpiredT_ok_inv h with h1 | h1
  · rw [h1]
  · rw [h1, delete_state_maxSize]

theorem WF_deleteIfExpiredT_ok {s : LRU K V} {thr : K → Bool} {k : K}
    {it : CacheItem V} {now : Nat} {pr : Bool × LRU K V}
    (h : s.deleteIfExpiredT thr k it now = .ok pr) (hwf : WF s) : WF pr.2 := by
  rcases deleteIfExpiredT_ok_inv h with h1 | h1 <;> rw [h1]
  · exact hwf
  · exact WF_delete s k hwf

/-- If the active-generation ascending phase propagates a callback throw,
the expired entry whose notification threw is still stored in the active
generation of the state observed at the throw. -/
theorem ascendCacheGoT_error_mem (thr : K → Bool) (now : Nat)
    (l : List (K × CacheItem V)) (s e2 : LRU K V)
    (hnd : (jkeys l).Nodup)
    (hfind : ∀ p ∈ l, jfind s.cache p.1 = some p.2)
    (h : ascendCacheGoT thr now l s = .error e2) :
    ∃ k it, thr k = true ∧ expiredAt it now = true
      ∧ jfind e2.cache k = some it := by
  induction l generalizing s with
  | nil => exact Except.noConfusion h
  | cons p rest ih =>
    obtain ⟨k, it⟩ := p
    simp only [jkeys, List.map_cons, List.nodup_cons] at hnd
    unfold ascendCacheGoT at h
    cases hde : s.deleteIfExpiredT thr k it now with
    | error e3 =>
      rw [hde] at h
      dsimp only at h
      injection h with h
      subst h
      obtain ⟨he, hthr, hexp⟩ := deleteIfExpiredT_error_inv hde
      subst he
      exact ⟨k, it, hthr, hexp, hfind (k, it) (List.mem_cons_self _ _)⟩
    | ok pr =>
      obtain ⟨d, s1⟩ := pr
      rw [hde] at h
      dsimp only at h
      cases hrec : ascendCacheGoT thr now rest s1 with
      | error e3 =>
        rw [hrec] at h
        dsimp only at h
        injection h with h
        subst h
        have hfind2 : ∀ p ∈ rest, jfind s1.cache p.1 = some p.2 := by
          intro p hp
          have hne : k ≠ p.1 := by
            intro hc
            exact hnd.1 (by rw [hc]; exact List.mem_map_of_mem Prod.fst hp)
          rw [(deleteIfExpiredT_ok_jfind hde hne).1]
          exact hfind p (List.mem_cons_of_mem _ hp)
        exact ih s1 hnd.2 hfind2 hrec
      | ok pr2 =>
        obtain ⟨ys, s2⟩ := pr2
        rw [hrec] at h
        dsimp only at h
        exact Except.noConfusion h

/-- `descendCacheGoT` analogue of `ascendCacheGoT_error_mem`. -/
theorem descendCacheGoT_error_mem (thr : K → Bool) (now : Nat)
    (l : List (K × CacheItem V)) (s e2 : LRU K V)
    (hnd : (jkeys l).Nodup)
    (hfind : ∀ p ∈ l, jfind s.cache p.1 = some p.2)
    (h : descendCacheGoT thr now l s = .error e2) :
    ∃ k it, thr k = true ∧ expiredAt it now = true
      ∧ jfind e2.cache k = some it := by
  induction l generalizing s with
  | nil => exact Except.noConfusion h
  | cons p rest ih =>
    obtain ⟨k, it⟩ := p
    simp only [jkeys, List.map_cons, List.nodup_cons] at hnd
    unfold descendCacheGoT at h
    cases hde : s.deleteIfExpiredT thr k it now with
    | error e3 =>
      rw [hde] at h
      dsimp only at h
      injection h with h
      subst h
      obtain ⟨he, hthr, hexp⟩ := deleteIfExpiredT_error_inv hde
      subst he
      exact ⟨k, it, hthr, hexp, hfind (k, it) (List.mem_cons_self _ _)⟩
    | ok pr =>
      obtain ⟨d, s1⟩ := pr
      rw [hde] at h
      dsimp only at h
      cases hrec : descendCacheGoT thr now rest s1 with
      | error e3 =>
        rw [hrec] at h
        dsimp only at h
        injection h with h
        subst h
        have hfind2 : ∀ p ∈ rest, jfind s1.cache p.1 = some p.2 := by
          intro p hp
          have hne : k ≠ p.1 := by
            intro hc
            exact hnd.1 (by rw [hc]; exact List.mem_map_of_mem Prod.fst hp)
          rw [(deleteIfExpiredT_ok_jfind hde hne).1]
          exact hfind p (List.mem_cons_of_mem _ hp)
        exact ih s1 hnd.2 hfind2 hrec
      | ok pr2 =>
        obtain ⟨ys, s2⟩ := pr2
        rw [hrec] at h
        dsimp only at h
        exact Except.noConfusion h

/-- If the previous-generation ascending phase propagates a callback
throw, the expired entry whose notification threw is still stored in the
previous generation (and not shadowed) at the throw. -/
theorem ascendOldGoT_error_mem (thr : K → Bool) (now : Nat)
    (l : List (K × CacheItem V)) (s e2 : LRU K V)
    (hnd : (jkeys l).Nodup)
    (hfind : ∀ p ∈ l, jhas s.cache p.1 = false →
      jfind s.oldCache p.1 = some p.2)
    (h : ascendOldGoT thr now l s = .error e2) :
    ∃ k it, thr k = true ∧ expiredAt it now = true
      ∧ jfind e2.cache k = none ∧ jfind e2.oldCache k = some it := by
  induction l generalizing s with
  | nil => exact Except.noConfusion h
  | cons p rest ih =>
    obtain ⟨k, it⟩ := p
    simp only [jkeys, List.map_cons, List.nodup_cons] at hnd
    unfold ascendOldGoT at h
    by_cases hk : jhas s.cache k
    · rw [if_pos hk] at h
      refine ih s hnd.2 ?_ h
      intro p hp hhp
      exact hfind p (List.mem_cons_of_mem _ hp) hhp
    · rw [if_neg hk] at h
      cases hde : s.deleteIfExpiredT thr k it now with
      | error e3 =>
        rw [hde] at h
        dsimp only at h
        injection h with h
        subst h
        obtain ⟨he, hthr, hexp⟩ := deleteIfExpiredT_error_inv hde
        subst he
        exact ⟨k, it, hthr, hexp,
          jfind_eq_none_of_not_has _ k (by simpa using hk),
          hfind (k, it) (List.mem_cons_self _ _) (by simpa using hk)⟩
      | ok pr =>
        obtain ⟨d, s1⟩ := pr
        rw [hde] at h
        dsimp only at h
        cases hrec : ascendOldGoT thr now rest s1 with
        | error e3 =>
          rw [hrec] at h
          dsimp only at h
          injection h with h
          subst h
          have hcc : s1.cache = s.cache :=
            deleteIfExpiredT_ok_cache_of_not_has hde (by simpa using hk)
          refine ih s1 hnd.2 ?_ hrec
          intro p hp hhp
          have hne : k ≠ p.1 := by
            intro hc
            exact hnd.1 (by rw [hc]; exact List.mem_map_of_mem Prod.fst hp)
          rw [(deleteIfExpiredT_ok_jfind hde hne).2]
          rw [hcc] at hhp
          exact hfind p (List.mem_cons_of_mem _ hp) hhp
        | ok pr2 =>
          obtain ⟨ys, s2⟩ := pr2
          rw [hrec] at h
          dsimp only at h
          exact Except.noConfusion h

/-- `descendOldGoT` analogue of `ascendOldGoT_error_mem`. -/
theorem descendOldGoT_error_mem (thr : K → Bool) (now : Nat)
    (l : List (K × CacheItem V)) (s e2 : LRU K V)
    (hnd : (jkeys l).Nodup)
    (hfind : ∀ p ∈ l, jhas s.cache p.1 = false →
      jfind s.oldCache p.1 = some p.2)
    (h : descendOldGoT thr now l s = .error e2) :
    ∃ k it, thr k = true ∧ expiredAt it now = true
      ∧ jfind e2.cache k = none ∧ jfind e2.oldCache k = some it := by
  induction l generalizing s with
  | nil => exact Except.noConfusion h
  | cons p rest ih =>
    obtain ⟨k, it⟩ := p
    simp only [jkeys, List.map_cons, List.nodup_cons] at hnd
    unfold descendOldGoT at h
    by_cases hk : jhas s.cache k
    · rw [if_pos hk] at h
      refine ih s hnd.2 ?_ h
      intro p hp hhp
      exact hfind p (List.mem_cons_of_mem _ hp) hhp
    · rw [if_neg hk] at h
      cases hde : s.deleteIfExpiredT thr k it now with
      | error e3 =>
        rw [hde] at h
        dsimp only at h
        injection h with h
        subst h
        obtain ⟨he, hthr, hexp⟩ := deleteIfExpiredT_error_inv hde
        subst he
        exact ⟨k, it, hthr, hexp,
          jfind_eq_none_of_not_has _ k (by simpa using hk),
          hfind (k, it) (List.mem_cons_self _ _) (by simpa using hk)⟩
      | ok pr =>
        obtain ⟨d, s1⟩ := pr
        rw [hde] at h
        dsimp only at h
        cases hrec : descendOldGoT thr now rest s1 with
        | error e3 =>
          rw [hrec] at h
          dsimp only at h
          injection h with h
          subst h
          have hcc : s1.cache = s.cache :=
            deleteIfExpiredT_ok_cache_of_not_has hde (by simpa using hk)
          refine ih s1 hnd.2 ?_ hrec
          intro p hp hhp
          have hne : k ≠ p.1 := by
            intro hc
            exact hnd.1 (by rw [hc]; exact List.mem_map_of_mem Prod.fst hp)
          rw [(deleteIfExpiredT_ok_jfind hde hne).2]
          rw [hcc] at hhp
          exact hfind p (List.mem_cons_of_mem _ hp) hhp
        | ok pr2 =>
          obtain ⟨ys, s2⟩ := pr2
          rw [hrec] at h
          dsimp only at h
          exact Except.noConfusion h

theorem ascendOldGoT_ok_cache (thr : K → Bool) (now : Nat)
    (l : List (K × CacheItem V)) (s : LRU K V)
    (ys : List (K × CacheItem V)) (s1 : LRU K V)
    (h : ascendOldGoT thr now l s = .ok (ys, s1)) : s1.cache = s.cache := by
  induction l generalizing s ys s1 with
  | nil =>
    injection h with h
    rw [Prod.mk.injEq] at h
    rw [← h.2]
  | cons p rest ih =>
    obtain ⟨k, it⟩ := p
    unfold ascendOldGoT at h
    by_cases hk : jhas s.cache k
    · rw [if_pos hk] at h
      exact ih s ys s1 h
    · rw [if_neg hk] at h
      cases hde : s.deleteIfExpiredT thr k it now with
      | error e3 =>
        rw [hde] at h
        dsimp only at h
        exact Except.noConfusion h
      | ok pr =>
        obtain ⟨d, sm⟩ := pr
        rw [hde] at h
        dsimp only at h
        cases hrec : ascendOldGoT thr now rest sm with
        | error e3 =>
          rw [hrec] at h
          dsimp only at h
          exact Except.noConfusion h
        | ok pr2 =>
          obtain ⟨ys2, s2⟩ := pr2
          rw [hrec] at h
          dsimp only at h
          injection h with h
          rw [Prod.mk.injEq] at h
          rw [← h.2, ih sm ys2 s2 hrec]
          exact deleteIfExpiredT_ok_cache_of_not_has hde (by simpa using hk)

theorem ascendOldGoT_ok_maxSize (thr : K → Bool) (now : Nat)
    (l : List (K × CacheItem V)) (s : LRU K V)
    (ys : List (K × CacheItem V)) (s1 : LRU K V)
    (h : ascendOldGoT thr now l s = .ok (ys, s1)) : s1.maxSize = s.maxSize := by
  induction l generalizing s ys s1 with
  | nil =>
    injection h with h
    rw [Prod.mk.injEq] at h
    rw [← h.2]
  | cons p rest ih =>
    obtain ⟨k, it⟩ := p
    unfold ascendOldGoT at h
    by_cases hk : jhas s.cache k
    · rw [if_pos hk] at h
      exact ih s ys s1 h
    · rw [if_neg hk] at h
      cases hde : s.deleteIfExpiredT thr k it now with
      | error e3 =>
        rw [hde] at h
        dsimp only at h
        exact Except.noConfusion h
      | ok pr =>
        obtain ⟨d, sm⟩ := pr
        rw [hde] at h
        dsimp only at h
        cases hrec : ascendOldGoT thr now rest sm with
        | error e3 =>
          rw [hrec] at h
          dsimp only at h
          exact Except.noConfusion h
        | ok pr2 =>
          obtain ⟨ys2, s2⟩ := pr2
          rw [hrec] at h
          dsimp only at h
          injection h with h
          rw [Prod.mk.injEq] at h
          rw [← h.2, ih sm ys2 s2 hrec]
          exact deleteIfExpiredT_ok_maxSize hde

theorem ascendCacheGoT_ok_maxSize (thr : K → Bool) (now : Nat)
    (l : List (K × CacheItem V)) (s : LRU K V)
    (ys : List (K × CacheItem V)) (s1 : LRU K V)
    (h : ascendCacheGoT thr now l s = .ok (ys, s1)) : s1.maxSize = s.maxSize := by
  induction l generalizing s ys s1 with
  | nil =>
    injection h with h
    rw [Prod.mk.injEq] at h
    rw [← h.2]
  | cons p rest ih =>
    obtain ⟨k, it⟩ := p
    unfold ascendCacheGoT at h
    cases hde : s.deleteIfExpiredT thr k it now with
    | error e3 =>
      rw [hde] at h
      dsimp only at h
      exact Except.noConfusion h
    | ok pr =>
      obtain ⟨d, sm⟩ := pr
      rw [hde] at h
      dsimp only at h
      cases hrec : ascendCacheGoT thr now rest sm with
      | error e3 =>
        rw [hrec] at h
        dsimp only at h
        exact Except.noConfusion h
      | ok pr2 =>
        obtain ⟨ys2, s2⟩ := pr2
        rw [hrec] at h
        dsimp only at h
        injection h with h
        rw [Prod.mk.injEq] at h
        rw [← h.2, ih sm ys2 s2 hrec]
        exact deleteIfExpiredT_ok_maxSize hde

theorem WF_descendCacheGoT_ok (thr : K → Bool) (now : Nat)
    (l : List (K × CacheItem V)) (s : LRU K V) (ys : List (K × V))
    (s1 : LRU K V) (h : descendCacheGoT thr now l s = .ok (ys, s1))
    (hwf : WF s) : WF s1 := by
  induction l generalizing s ys s1 with
  | nil =>
    injection h with h
    rw [Prod.mk.injEq] at h
    rw [← h.2]
    exact hwf
  | cons p rest ih =>
    obtain ⟨k, it⟩ := p
    unfold descendCacheGoT at h
    cases hde : s.deleteIfExpiredT thr k it now with
    | error e3 =>
      rw [hde] at h
      dsimp only at h
      exact Except.noConfusion h
    | ok pr =>
      obtain ⟨d, sm⟩ := pr
      rw [hde] at h
      dsimp only at h
      cases hrec : descendCacheGoT thr now rest sm with
      | error e3 =>
        rw [hrec] at h
        dsimp only at h
        exact Except.noConfusion h
      | ok pr2 =>
        obtain ⟨ys2, s2⟩ := pr2
        rw [hrec] at h
        dsimp only at h
        injection h with h
        rw [Prod.mk.injEq] at h
        rw [← h.2]
        exact ih sm ys2 s2 hrec (WF_deleteIfExpiredT_ok hde hwf)

/-- If the full ascending collection (as run by `resize` and the ascending
iterator) propagates a callback throw, the expired entry whose TTL
notification threw is still stored — `lookup2` still finds it — in the
state observed at the throw. -/
theorem collectAscendingT_error (s : LRU K V) (thr : K → Bool) (t : Nat)
    (e2 : LRU K V) (hwf : WF s) (h : s.collectAscendingT thr t = .error e2) :
    ∃ k it, thr k = true ∧ expiredAt it t = true ∧ lookup2 e2 k = some it := by
  unfold LRU.collectAscendingT at h
  cases hold : ascendOldGoT thr t s.oldCache s with
  | error e3 =>
    rw [hold] at h
    dsimp only at h
    injection h with h
    subst h
    obtain ⟨k, it, h1, h2, h3, h4⟩ :=
      ascendOldGoT_error_mem thr t s.oldCache s _ hwf.2.2.2.2
        (fun p hp _ => mem_jfind hwf.2.2.2.2 hp) hold
    exact ⟨k, it, h1, h2, lookup2_of_old h3 h4⟩
  | ok pr =>
    obtain ⟨ys1, s1⟩ := pr
    rw [hold] at h
    dsimp only at h
    cases hc : ascendCacheGoT thr t s1.cache s1 with
    | error e3 =>
      rw [hc] at h
      dsimp only at h
      injection h with h
      subst h
      have hcache : s1.cache = s.cache :=
        ascendOldGoT_ok_cache thr t s.oldCache s ys1 s1 hold
      have hnd : (jkeys s1.cache).Nodup := by
        rw [hcache]
        exact hwf.2.2.2.1
      obtain ⟨k, it, h1, h2, h3⟩ :=
        ascendCacheGoT_error_mem thr t s1.cache s1 _ hnd
          (fun p hp => mem_jfind hnd hp) hc
      exact ⟨k, it, h1, h2, lookup2_of_cache h3⟩
    | ok pr2 =>
      obtain ⟨ys2, s2⟩ := pr2
      rw [hc] at h
      dsimp only at h
      exact Except.noConfusion h

/-- The descending analogue of `collectAscendingT_error`. -/
theorem entriesDescendingT_error (s : LRU K V) (thr : K → Bool) (t : Nat)
    (e2 : LRU K V) (hwf : WF s) (h : s.entriesDescendingT thr t = .error e2) :
    ∃ k it, thr k = true ∧ expiredAt it t = true ∧ lookup2 e2 k = some it := by
  unfold LRU.entriesDescendingT at h
  cases hc : descendCacheGoT thr t s.cache.reverse s with
  | error e3 =>
    rw [hc] at h
    dsimp only at h
    injection h with h
    subst h
    have hnd : (jkeys s.cache.reverse).Nodup := by
      unfold jkeys
      rw [List.map_reverse]
      exact List.nodup_reverse.mpr hwf.2.2.2.1
    obtain ⟨k, it, h1, h2, h3⟩ :=
      descendCacheGoT_error_mem thr t s.cache.reverse s _ hnd
        (fun p hp => mem_jfind hwf.2.2.2.1 (List.mem_reverse.mp hp)) hc
    exact ⟨k, it, h1, h2, lookup2_of_cache h3⟩
  | ok pr =>
    obtain ⟨ys1, s1⟩ := pr
    rw [hc] at h
    dsimp only at h
    have hwf1 : WF s1 := WF_descendCacheGoT_ok thr t s.cache.reverse s ys1 s1 hc hwf
    cases ho : descendOldGoT thr t s1.oldCache.reverse s1 with
    | error e3 =>
      rw [ho] at h
      dsimp only at h
      injection h with h
      subst h
      have hnd : (jkeys s1.oldCache.reverse).Nodup := by
        unfold jkeys
        rw [List.map_reverse]
        exact List.nodup_reverse.mpr hwf1.2.2.2.2
      obtain ⟨k, it, h1, h2, h3, h4⟩ :=
        descendOldGoT_error_mem thr t s1.oldCache.reverse s1 _ hnd
          (fun p hp _ => mem_jfind hwf1.2.2.2.2 (List.mem_reverse.mp hp)) ho
      exact ⟨k, it, h1, h2, lookup2_of_old h3 h4⟩
    | ok pr2 =>
      obtain ⟨ys2, s2⟩ := pr2
      rw [ho] at h
      dsimp only at h
      exact Except.noConfusion h

/-- The collection phase never touches `#maxSize`: at an overflow-emission
throw inside `resize` the bound is still the old one. -/
theorem collectAscendingT_ok_maxSize (s : LRU K V) (thr : K → Bool) (t : Nat)
    (items : List (K × CacheItem V)) (s1 : LRU K V)
    (h : s.collectAscendingT thr t = .ok (items, s1)) :
    s1.maxSize = s.maxSize := by
  unfold LRU.collectAscendingT at h
  cases hold : ascendOldGoT thr t s.oldCache s with
  | error e3 =>
    rw [hold] at h
    dsimp only at h
    exact Except.noConfusion h
  | ok pr =>
    obtain ⟨ys1, sm⟩ := pr
    rw [hold] at h
    dsimp only at h
    cases hc : ascendCacheGoT thr t sm.cache sm with
    | error e3 =>
      rw [hc] at h
      dsimp only at h
      exact Except.noConfusion h
    | ok pr2 =>
      obtain ⟨ys2, s2⟩ := pr2
      rw [hc] at h
      dsimp only at h
      injection h with h
      rw [Prod.mk.injEq] at h
      rw [← h.2, ascendCacheGoT_ok_maxSize thr t sm.cache sm ys2 s2 hc]
      exact ascendOldGoT_ok_maxSize thr t s.oldCache s ys1 sm hold

/-- Claim C5 amended: eviction notifications are invoked before the
corresponding state change, not after.  The lazy-expiry path shared by
`get`, `has`, `peek` and both ordered iterators (`#deleteIfExpired`)
invokes `onEviction` before `delete`, so a throw there propagates with the
expired entry still stored: `get`, `has` and `peek` escape with the cache
state completely unchanged, and when either iteration (or the collection
run by `resize`) throws, the entry whose notification threw is still found
by lookup in the state observed at the throw.  A throw during the rotation
emission inside `set` leaves the new entry inserted and the `#size`
counter already reset to 0, but the previous generation unretired and the
active generation unreplaced.  A throw while `resize` emits the overflow
slice leaves the post-collection state: generations not rebuilt and
`maxSize` still the old bound (collection never touches it). -/
theorem C5_state_change_after_notification :
    (∀ (s : LRU K V) (thr : K → Bool) (k : K) (it : CacheItem V) (e t : Nat),
        it.expiry = some e → e ≤ t → thr k = true →
          s.deleteIfExpiredT thr k it t = .error s)
    ∧ (∀ (s : LRU K V) (thr : K → Bool) (k : K) (it : CacheItem V) (e t : Nat),
        lookup2 s k = some it → it.expiry = some e → e ≠ 0 → e ≤ t →
          thr k = true → s.getT thr k t = .error s)
    ∧ (∀ (s : LRU K V) (thr : K → Bool) (k : K) (it : CacheItem V) (e t : Nat),
        lookup2 s k = some it → it.expiry = some e → e ≤ t →
          thr k = true → s.hasT thr k t = .error s)
    ∧ (∀ (s : LRU K V) (thr : K → Bool) (k : K) (it : CacheItem V) (e t : Nat),
        lookup2 s k = some it → it.expiry = some e → e ≠ 0 → e ≤ t →
          thr k = true → s.peekT thr k t = .error s)
    ∧ (∀ (s : LRU K V) (thr : K → Bool) (t : Nat) (e2 : LRU K V),
        WF s → s.collectAscendingT thr t = .error e2 →
          ∃ k it, thr k = true ∧ expiredAt it t = true
            ∧ lookup2 e2 k = some it)
    ∧ (∀ (s : LRU K V) (thr : K → Bool) (t : Nat) (e2 : LRU K V),
        WF s → s.entriesDescendingT thr t = .error e2 →
          ∃ k it, thr k = true ∧ expiredAt it t = true
            ∧ lookup2 e2 k = some it)
    ∧ (∀ (s : LRU K V) (thr : K → Bool) (k : K) (v : V)
          (mo : Option (Option Nat)) (t : Nat),
        jhas s.cache k = false → (s.maxSize : Int) ≤ s.sz + 1 →
          s.oldCache.any (fun p => thr p.1) = true →
          s.setT thr k v mo t
            = .error ⟨0, jset s.cache k ⟨v, expiryFor (mo.getD s.maxAge) t⟩,
                s.oldCache, s.maxSize, s.maxAge⟩)
    ∧ (∀ (s : LRU K V) (thr : K → Bool) (m t : Nat)
          (items : List (K × CacheItem V)) (s1 : LRU K V),
        m ≠ 0 → s.collectAscendingT thr t = .ok (items, s1) →
          ¬ items.length < m →
          (items.take (items.length - m)).any (fun p => thr p.1) = true →
          s.resizeT thr m t = .error s1)
    ∧ (∀ (s : LRU K V) (thr : K → Bool) (t : Nat)
          (items : List (K × CacheItem V)) (s1 : LRU K V),
        s.collectAscendingT thr t = .ok (items, s1) →
          s1.maxSize = s.maxSize) := by
  refine ⟨?_, ?_, ?_, ?_, ?_, ?_, ?_, ?_, ?_⟩
  · intro s thr k it e t hx he hthr
    refine deleteIfExpiredT_of_throw s thr k it t ?_ hthr
    unfold expiredAt
    rw [hx]
    exact decide_eq_true he
  · intro s thr k it e t hl hx h0 he hthr
    have htr : truthyExpiry it = true := by
      unfold truthyExpiry
      rw [hx]
      exact decide_eq_true h0
    have hexp : expiredAt it t = true := by
      unfold expiredAt
      rw [hx]
      exact decide_eq_true he
    rcases lookup2_eq_cases hl with hfc | ⟨hfc, hfo⟩
    · have hcb : jhas s.cache k = true := by
        unfold jhas
        rw [hfc]
        rfl
      unfold LRU.getT
      rw [if_pos hcb, hfc]
      dsimp only
      rw [if_pos htr, deleteIfExpiredT_of_throw s thr k it t hexp hthr]
    · have hcb : jhas s.cache k = false := by
        unfold jhas
        rw [hfc]
        rfl
      have hob : jhas s.oldCache k = true := by
        unfold jhas
        rw [hfo]
        rfl
      unfold LRU.getT
      rw [if_neg (by simp [hcb]), if_pos hob, hfo]
      dsimp only
      rw [deleteIfExpiredT_of_throw s thr k it t hexp hthr]
  · intro s thr k it e t hl hx he hthr
    have hexp : expiredAt it t = true := by
      unfold expiredAt
      rw [hx]
      exact decide_eq_true he
    rcases lookup2_eq_cases hl with hfc | ⟨hfc, hfo⟩
    · have hcb : jhas s.cache k = true := by
        unfold jhas
        rw [hfc]
        rfl
      unfold LRU.hasT
      rw [if_pos hcb, hfc]
      dsimp only
      rw [deleteIfExpiredT_of_throw s thr k it t hexp hthr]
    · have hcb : jhas s.cache k = false := by
        unfold jhas
        rw [hfc]
        rfl
      have hob : jhas s.oldCache k = true := by
        unfold jhas
        rw [hfo]
        rfl
      unfold LRU.hasT
      rw [if_neg (by simp [hcb]), if_pos hob, hfo]
      dsimp only
      rw [deleteIfExpiredT_of_throw s thr k it t hexp hthr]
  · intro s thr k it e t hl hx h0 he hthr
    have htr : truthyExpiry it = true := by
      unfold truthyExpiry
      rw [hx]
      exact decide_eq_true h0
    have hexp : expiredAt it t = true := by
      unfold expiredAt
      rw [hx]
      exact decide_eq_true he
    rcases lookup2_eq_cases hl with hfc | ⟨hfc, hfo⟩
    · have hcb : jhas s.cache k = true := by
        unfold jhas
        rw [hfc]
        rfl
      unfold LRU.peekT
      rw [if_pos hcb, hfc]
      dsimp only
      unfold LRU.getItemValueT
      rw [if_pos htr, deleteIfExpiredT_of_throw s thr k it t hexp hthr]
    · have hcb : jhas s.cache k = false := by
        unfold jhas
        rw [hfc]
        rfl
      have hob : jhas s.oldCache k = true := by
        unfold jhas
        rw [hfo]
        rfl
      unfold LRU.peekT
      rw [if_neg (by simp [hcb]), if_pos hob, hfo]
      dsimp only
      unfold LRU.getItemValueT
      rw [if_pos htr, deleteIfExpiredT_of_throw s thr k it t hexp hthr]
  · exact collectAscendingT_error
  · exact entriesDescendingT_error
  · intro s thr k v mo t hk hrot hthr
    unfold LRU.setT
    rw [if_neg (by simp [hk])]
    unfold LRU.internalSetT
    dsimp only
    rw [if_pos hrot, if_pos hthr]
  · intro s thr m t items s1 hm hcol hlt hany
    unfold LRU.resizeT
    rw [if_neg hm, hcol]
    dsimp only
    rw [if_neg hlt, if_pos hany]
  · exact collectAscendingT_ok_maxSize

/-- Witness for the amended C5: a TTL throw on the shared expiry path; TTL
throws in `get`, `has`, `peek`, the ascending collection and the
descending iteration, each leaving the expired entry stored; a rotation
throw in `set`; and an overflow-emission throw in `resize` with the bound
still the old one. -/
theorem C5_state_change_after_notification_witness :
    ((LRU.mk 0 [] [] 2 none : LRU Nat Nat).deleteIfExpiredT
        (fun k2 => k2 == 1) 1 ⟨10, some 5⟩ 7 = .error (LRU.mk 0 [] [] 2 none))
    ∧ (lookup2 (LRU.mk 1 [(1, ⟨10, some 5⟩)] [] 2 (some 5) : LRU Nat Nat) 1
          = some ⟨10, some 5⟩
        ∧ (LRU.mk 1 [(1, ⟨10, some 5⟩)] [] 2 (some 5) : LRU Nat Nat).getT
            (fun k2 => k2 == 1) 1 7
          = .error (LRU.mk 1 [(1, ⟨10, some 5⟩)] [] 2 (some 5)))
    ∧ ((LRU.mk 0 [] [(1, ⟨10, some 5⟩)] 2 none : LRU Nat Nat).hasT
          (fun k2 => k2 == 1) 1 7
        = .error (LRU.mk 0 [] [(1, ⟨10, some 5⟩)] 2 none))
    ∧ ((LRU.mk 0 [] [(1, ⟨10, some 5⟩)] 2 none : LRU Nat Nat).peekT
          (fun k2 => k2 == 1) 1 7
        = .error (LRU.mk 0 [] [(1, ⟨10, some 5⟩)] 2 none))
    ∧ (WF (LRU.mk 0 [] [(1, ⟨10, some 5⟩)] 2 none : LRU Nat Nat)
        ∧ (LRU.mk 0 [] [(1, ⟨10, some 5⟩)] 2 none : LRU Nat Nat).collectAscendingT
            (fun k2 => k2 == 1) 7
          = .error (LRU.mk 0 [] [(1, ⟨10, some 5⟩)] 2 none)
        ∧ ∃ k it, (fun k2 => k2 == 1) k = true ∧ expiredAt it 7 = true
            ∧ lookup2 (LRU.mk 0 [] [(1, ⟨10, some 5⟩)] 2 none : LRU Nat Nat) k
              = some it)
    ∧ ((LRU.mk 1 [(1, ⟨10, some 5⟩)] [] 2 (some 5) : LRU Nat Nat).entriesDescendingT
            (fun k2 => k2 == 1) 7
          = .error (LRU.mk 1 [(1, ⟨10, some 5⟩)] [] 2 (some 5))
        ∧ ∃ k it, (fun k2 => k2 == 1) k = true ∧ expiredAt it 7 = true
            ∧ lookup2 (LRU.mk 1 [(1, ⟨10, some 5⟩)] [] 2 (some 5) : LRU Nat Nat) k
              = some it)
    ∧ ((LRU.mk 1 [(1, ⟨10, none⟩)] [(2, ⟨20, none⟩)] 2 none : LRU Nat Nat).setT
          (fun k2 => k2 == 2) 3 30 none 9
        = .error (LRU.mk 0 [(1, ⟨10, none⟩), (3, ⟨30, none⟩)]
            [(2, ⟨20, none⟩)] 2 none))
    ∧ ((LRU.mk 2 [(1, ⟨10, none⟩), (2, ⟨20, none⟩)] [] 3 none
          : LRU Nat Nat).collectAscendingT (fun k2 => k2 == 1) 0
          = .ok ([(1, ⟨10, none⟩), (2, ⟨20, none⟩)],
              LRU.mk 2 [(1, ⟨10, none⟩), (2, ⟨20, none⟩)] [] 3 none)
        ∧ (LRU.mk 2 [(1, ⟨10, none⟩), (2, ⟨20, none⟩)] [] 3 none
            : LRU Nat Nat).resizeT (fun k2 => k2 == 1) 1 0
          = .error (LRU.mk 2 [(1, ⟨10, none⟩), (2, ⟨20, none⟩)] [] 3 none))
    ∧ ((LRU.mk 2 [(1, ⟨10, none⟩), (2, ⟨20, none⟩)] [] 3 none
          : LRU Nat Nat).maxSize
        = (LRU.mk 2 [(1, ⟨10, none⟩), (2, ⟨20, none⟩)] [] 3 none
          : LRU Nat Nat).maxSize) :=
  ⟨C5_state_change_after_notification.1 (LRU.mk 0 [] [] 2 none)
      (fun k2 => k2 == 1) 1 ⟨10, some 5⟩ 5 7 rfl (by decide) (by decide),
    ⟨by decide,
      C5_state_change_after_notification.2.1
        (LRU.mk 1 [(1, ⟨10, some 5⟩)] [] 2 (some 5)) (fun k2 => k2 == 1) 1
        ⟨10, some 5⟩ 5 7 (by decide) rfl (by decide) (by decide) (by decide)⟩,
    C5_state_change_after_notification.2.2.1
      (LRU.mk 0 [] [(1, ⟨10, some 5⟩)] 2 none) (fun k2 => k2 == 1) 1
      ⟨10, some 5⟩ 5 7 (by decide) rfl (by decide) (by decide),
    C5_state_change_after_notification.2.2.2.1
      (LRU.mk 0 [] [(1, ⟨10, some 5⟩)] 2 none) (fun k2 => k2 == 1) 1
      ⟨10, some 5⟩ 5 7 (by decide) rfl (by decide) (by decide) (by decide),
    ⟨by decide, by decide,
      C5_state_change_after_notification.2.2.2.2.1
        (LRU.mk 0 [] [(1, ⟨10, some 5⟩)] 2 none) (fun k2 => k2 == 1) 7
        (LRU.mk 0 [] [(1, ⟨10, some 5⟩)] 2 none) (by decide) (by decide)⟩,
    ⟨by decide,
      C5_state_change_after_notification.2.2.2.2.2.1
        (LRU.mk 1 [(1, ⟨10, some 5⟩)] [] 2 (some 5)) (fun k2 => k2 == 1) 7
        (LRU.mk 1 [(1, ⟨10, some 5⟩)] [] 2 (some 5)) (by decide) (by decide)⟩,
    C5_state_change_after_notification.2.2.2.2.2.2.1
      (LRU.mk 1 [(1, ⟨10, none⟩)] [(2, ⟨20, none⟩)] 2 none) (fun k2 => k2 == 2)
      3 30 none 9 (by decide) (by decide) (by decide),
    ⟨by decide,
      C5_state_change_after_notification.2.2.2.2.2.2.2.1
        (LRU.mk 2 [(1, ⟨10, none⟩), (2, ⟨20, none⟩)] [] 3 none)
        (fun k2 => k2 == 1) 1 0 [(1, ⟨10, none⟩), (2, ⟨20, none⟩)]
        (LRU.mk 2 [(1, ⟨10, none⟩), (2, ⟨20, none⟩)] [] 3 none)
        (by decide) (by decide) (by decide) (by decide)⟩,
    C5_state_change_after_notification.2.2.2.2.2.2.2.2
      (LRU.mk 2 [(1, ⟨10, none⟩), (2, ⟨20, none⟩)] [] 3 none)
      (fun k2 => k2 == 1) 0 [(1, ⟨10, none⟩), (2, ⟨20, none⟩)]
      (LRU.mk 2 [(1, ⟨10, none⟩), (2, ⟨20, none⟩)] [] 3 none) (by decide)⟩

/-!
Iteration order.  When no visited entry is expired the iterator folds have
no side effects, which lets the two traversal orders be compared exactly.
-/

theorem ascendOldGo_no_expiry (now : Nat) (l : List (K × CacheItem V))
    (s : LRU K V) (h : ∀ p ∈ l, expiredAt p.2 now = false) :
    ascendOldGo now l s = (l.filter (fun p => !(jhas s.cache p.1)), s, []) := by
  induction l with
  | nil => rfl
  | cons p rest ih =>
    obtain ⟨k, it⟩ := p
    have hh : expiredAt (k, it).2 now = false := h _ (List.mem_cons_self _ _)
    have hrest : ∀ p ∈ rest, expiredAt p.2 now = false :=
      fun p hp => h p (List.mem_cons_of_mem _ hp)
    unfold ascendOldGo
    by_cases hk : jhas s.cache k
    · rw [if_pos hk, ih hrest]
      simp [List.filter_cons, hk]
    · rw [if_neg hk]
      dsimp only
      rw [deleteIfExpired_of_live s k it now hh]
      dsimp only
      rw [ih hrest]
      simp [List.filter_cons, hk]

theorem ascendCacheGo_no_expiry (now : Nat) (l : List (K × CacheItem V))
    (s : LRU K V) (h : ∀ p ∈ l, expiredAt p.2 now = false) :
    ascendCacheGo now l s = (l, s, []) := by
  induction l with
  | nil => rfl
  | cons p rest ih =>
    obtain ⟨k, it⟩ := p
    have hh : expiredAt (k, it).2 now = false := h _ (List.mem_cons_self _ _)
    have hrest : ∀ p ∈ rest, expiredAt p.2 now = false :=
      fun p hp => h p (List.mem_cons_of_mem _ hp)
    unfold ascendCacheGo
    dsimp only
    rw [deleteIfExpired_of_live s k it now hh]
    dsimp only
    rw [ih hrest]
    simp

theorem descendCacheGo_no_expiry (now : Nat) (l : List (K × CacheItem V))
    (s : LRU K V) (h : ∀ p ∈ l, expiredAt p.2 now = false) :
    descendCacheGo now l s = (l.map (fun p => (p.1, p.2.value)), s, []) := by
  induction l with
  | nil => rfl
  | cons p rest ih =>
    obtain ⟨k, it⟩ := p
    have hh : expiredAt (k, it).2 now = false := h _ (List.mem_cons_self _ _)
    have hrest : ∀ p ∈ rest, expiredAt p.2 now = false :=
      fun p hp => h p (List.mem_cons_of_mem _ hp)
    unfold descendCacheGo
    dsimp only
    rw [deleteIfExpired_of_live s k it now hh]
    dsimp only
    rw [ih hrest]
    simp

theorem descendOldGo_no_expiry (now : Nat) (l : List (K × CacheItem V))
    (s : LRU K V) (h : ∀ p ∈ l, expiredAt p.2 now = false) :
    descendOldGo now l s
      = ((l.filter (fun p => !(jhas s.cache p.1))).map
          (fun p => (p.1, p.2.value)), s, []) := by
  induction l with
  | nil => rfl
  | cons p rest ih =>
    obtain ⟨k, it⟩ := p
    have hh : expiredAt (k, it).2 now = false := h _ (List.mem_cons_self _ _)
    have hrest : ∀ p ∈ rest, expiredAt p.2 now = false :=
      fun p hp => h p (List.mem_cons_of_mem _ hp)
    unfold descendOldGo
    by_cases hk : jhas s.cache k
    · rw [if_pos hk, ih hrest]
      simp [List.filter_cons, hk]
    · rw [if_neg hk]
      dsimp only
      rw [deleteIfExpired_of_live s k it now hh]
      dsimp only
      rw [ih hrest]
      simp [List.filter_cons, hk]

/-- Claim C8: on any state in which no entry of either generation is
expired, `entriesDescending()` — which traverses the active generation
newest-first and then the previous generation newest-first, skipping keys
shadowed by the active generation — produces exactly the reverse of the
`entriesAscending()` sequence (previous non-shadowed entries in insertion
order, then active entries in insertion order). -/
theorem C8_descending_is_reverse_of_ascending (s : LRU K V) (t : Nat)
    (hc : ∀ p ∈ s.cache, expiredAt p.2 t = false)
    (ho : ∀ p ∈ s.oldCache, expiredAt p.2 t = false) :
    (s.entriesDescendingL t).1 = ((s.entriesAscendingL t).1).reverse := by
  have hcr : ∀ p ∈ s.cache.reverse, expiredAt p.2 t = false :=
    fun p hp => hc p (List.mem_reverse.mp hp)
  have hor : ∀ p ∈ s.oldCache.reverse, expiredAt p.2 t = false :=
    fun p hp => ho p (List.mem_reverse.mp hp)
  have hD : (s.entriesDescendingL t).1
      = s.cache.reverse.map (fun p => (p.1, p.2.value))
        ++ (s.oldCache.reverse.filter (fun p => !(jhas s.cache p.1))).map
            (fun p => (p.1, p.2.value)) := by
    unfold LRU.entriesDescendingL
    rw [descendCacheGo_no_expiry t s.cache.reverse s hcr]
    dsimp only
    rw [descendOldGo_no_expiry t s.oldCache.reverse s hor]
  have hA : (s.entriesAscendingL t).1
      = (s.oldCache.filter (fun p => !(jhas s.cache p.1)) ++ s.cache).map
          (fun p => (p.1, p.2.value)) := by
    unfold LRU.entriesAscendingL LRU.collectAscending
    rw [ascendOldGo_no_expiry t s.oldCache s ho]
    dsimp only
    rw [ascendCacheGo_no_expiry t s.cache s hc]
  rw [hD, hA]
  rw [List.map_append, List.reverse_append, List.map_reverse,
    List.filter_reverse, List.map_reverse]

/-- Witness for C8 on a mixed state: active generation `{1 ↦ 1}`, previous
generation `{1 ↦ 0 (shadowed), 2 ↦ 2, 3 ↦ 3}`, nothing expired. -/
theorem C8_descending_is_reverse_of_ascending_witness :
    (∀ p ∈ (LRU.mk 1 [(1, ⟨1, none⟩)]
        [(1, ⟨0, none⟩), (2, ⟨2, none⟩), (3, ⟨3, some 9⟩)] 4 none
          : LRU Nat Nat).cache, expiredAt p.2 5 = false)
    ∧ (∀ p ∈ (LRU.mk 1 [(1, ⟨1, none⟩)]
        [(1, ⟨0, none⟩), (2, ⟨2, none⟩), (3, ⟨3, some 9⟩)] 4 none
          : LRU Nat Nat).oldCache, expiredAt p.2 5 = false)
    ∧ ((LRU.mk 1 [(1, ⟨1, none⟩)]
        [(1, ⟨0, none⟩), (2, ⟨2, none⟩), (3, ⟨3, some 9⟩)] 4 none
          : LRU Nat Nat).entriesDescendingL 5).1
      = (((LRU.mk 1 [(1, ⟨1, none⟩)]
        [(1, ⟨0, none⟩), (2, ⟨2, none⟩), (3, ⟨3, some 9⟩)] 4 none
          : LRU Nat Nat).entriesAscendingL 5).1).reverse :=
  ⟨by decide, by decide,
    C8_descending_is_reverse_of_ascending
      (LRU.mk 1 [(1, ⟨1, none⟩)]
        [(1, ⟨0, none⟩), (2, ⟨2, none⟩), (3, ⟨3, some 9⟩)] 4 none)
      5 (by decide) (by decide)⟩

/-- The keys `set` has been called on, in first-insertion order (later sets
to an existing key do not move it), accumulated over a facade operation
sequence. -/
def firstKeys : List (FOp K V) → List K → List K
  | [], acc => acc
  | FOp.set k _ _ :: ops, acc =>
    firstKeys ops (if k ∈ acc then acc else acc ++ [k])
  | _ :: ops, acc => firstKeys ops acc

theorem jset_not_has_append (m : JMap K V) (k : K) (v : V)
    (h : jhas m k = false) : jset m k v = m ++ [(k, v)] := by
  induction m with
  | nil => simp
  | cons p t ih =>
    obtain ⟨a, b⟩ := p
    rw [jhas_cons] at h
    by_cases h2 : a = k
    · simp [h2] at h
    · simp only [if_neg h2] at h
      simp [h2, ih h]

theorem frun_append (q : QuickLRU K V) (l1 l2 : List (FOp K V)) :
    frun q (l1 ++ l2) = frun (frun q l1) l2 := by
  induction l1 generalizing q with
  | nil => rfl
  | cons op rest ih =>
    show frun (fstep q op) (rest ++ l2) = _
    exact ih (fstep q op)

/-- Claim C9: the facade's mirror map is never pruned by engine-side
eviction.  For every facade operation sequence containing no `clear`, the
key sequence served by `keys()`/`values()`/`entries()` equals the keys
passed to `set`, in first-insertion order — deleted keys included, since
the facade's `delete` skips the mirror, and keys evicted inside the engine
by rotation or TTL expiry included as well.  Consequently the number of
mirror entries after `n` distinct `set`s is `n`, regardless of `maxSize`
(second conjunct, on a `maxSize 2` facade). -/
theorem C9_mirror_never_pruned :
    (∀ (q : QuickLRU K V) (ops : List (FOp K V)),
        (∀ op ∈ ops, op ≠ FOp.clear) →
        (frun q ops).map.map Prod.fst = firstKeys ops (q.map.map Prod.fst))
    ∧ (∀ n : Nat,
        ((frun (QuickLRU.init 2 none : QuickLRU Nat Nat)
          ((List.range n).map (fun i => FOp.set i 0 0))).map).length = n) := by
  have key : ∀ (ops : List (FOp K V)) (q : QuickLRU K V),
      (∀ op ∈ ops, op ≠ FOp.clear) →
      (frun q ops).map.map Prod.fst = firstKeys ops (q.map.map Prod.fst) := by
    intro ops
    induction ops with
    | nil => intro q _; rfl
    | cons op rest ih =>
      intro q hnc
      have hrest : ∀ op2 ∈ rest, op2 ≠ FOp.clear :=
        fun op2 h2 => hnc op2 (List.mem_cons_of_mem _ h2)
      cases op with
      | set k v t =>
        show (frun ((q.set k v t).1) rest).map.map Prod.fst = _
        rw [ih _ hrest]
        show _ = firstKeys rest
          (if k ∈ q.map.map Prod.fst then q.map.map Prod.fst
            else q.map.map Prod.fst ++ [k])
        have hmap : (q.set k v t).1.map = jset q.map k v := rfl
        rw [hmap]
        have hkeys : jkeys (jset q.map k v)
            = if jhas q.map k then jkeys q.map else jkeys q.map ++ [k] :=
          jkeys_jset q.map k v
        unfold jkeys at hkeys
        rw [hkeys]
        by_cases hk : jhas q.map k
        · have hk2 : k ∈ List.map Prod.fst q.map :=
            (jhas_iff_mem_jkeys q.map k).mp hk
          rw [if_pos hk, if_pos hk2]
        · have hk2 : ¬ k ∈ List.map Prod.fst q.map :=
            fun hm => hk ((jhas_iff_mem_jkeys q.map k).mpr hm)
          rw [if_neg hk, if_neg hk2]
      | get k t => exact ih _ hrest
      | has k t => exact ih _ hrest
      | peek k t => exact ih _ hrest
      | del k => exact ih _ hrest
      | resize m t => exact ih _ hrest
      | clear => exact absurd rfl (hnc FOp.clear (List.mem_cons_self _ _))
  refine ⟨fun q ops h => key ops q h, ?_⟩
  have hmirror : ∀ n : Nat,
      (frun (QuickLRU.init 2 none : QuickLRU Nat Nat)
        ((List.range n).map (fun i => FOp.set i 0 0))).map
      = (List.range n).map (fun i => (i, 0)) := by
    intro n
    induction n with
    | zero => rfl
    | succ n ih =>
      rw [List.range_succ, List.map_append, frun_append]
      show jset (frun (QuickLRU.init 2 none : QuickLRU Nat Nat)
          ((List.range n).map (fun i => FOp.set i 0 0))).map n 0
        = List.map (fun i => (i, (0 : Nat))) (List.range n ++ [n])
      rw [ih]
      have hnot : jhas ((List.range n).map (fun i => (i, (0 : Nat)))) n = false := by
        rw [jhas_eq_false_iff]
        unfold jkeys
        rw [List.map_map]
        intro hmem
        have hn : n ∈ List.range n := by
          simpa using hmem
        exact absurd (List.mem_range.mp hn) (lt_irrefl n)
      rw [jset_not_has_append _ _ _ hnot]
      simp
  intro n
  rw [hmirror n, List.length_map, List.length_range]

/-- Witness for C9: four sets (one a delete survivor) on a `maxSize 2`
facade: the engine keeps at most two live keys, but `keys()` still yields
all three distinct set keys in first-insertion order even after
`delete(1)`. -/
theorem C9_mirror_never_pruned_witness :
    (∀ op ∈ [FOp.set 1 10 0, FOp.set 2 20 0, FOp.del 1,
        FOp.set 3 30 1, FOp.set 2 21 2], op ≠ (FOp.clear : FOp Nat Nat))
    ∧ (frun (QuickLRU.init 2 none : QuickLRU Nat Nat)
        [FOp.set 1 10 0, FOp.set 2 20 0, FOp.del 1,
          FOp.set 3 30 1, FOp.set 2 21 2]).map.map Prod.fst
      = firstKeys
          [FOp.set 1 10 0, FOp.set 2 20 0, FOp.del 1,
            FOp.set 3 30 1, FOp.set 2 21 2]
          ((QuickLRU.init 2 none : QuickLRU Nat Nat).map.map Prod.fst) :=
  ⟨by decide,
    C9_mirror_never_pruned.1 (QuickLRU.init 2 none)
      [FOp.set 1 10 0, FOp.set 2 20 0, FOp.del 1,
        FOp.set 3 30 1, FOp.set 2 21 2] (by decide)⟩

end QuickLRUModel
